import Mathlib

/-!
Verification of the keyword-based news classifier (`classifyNews` and its
helpers, `src/unnamed/part_001`).

Modelling choices for the shallow embedding:

* JavaScript numbers are modelled as exact fractions `Frac` (an `Int`
  numerator over a `Nat` denominator, kept unnormalised so that every
  arithmetic operation is kernel-reducible integer arithmetic); the
  interpretation of a fraction as the rational it denotes is `Frac.val`.
  `NaN` is modelled by `none` in `JsNum := Option Frac`; the arithmetic
  operations propagate it the way JS arithmetic propagates NaN.  Division by
  zero yields `none`: in JS `0/0` is `NaN` (which `none` models exactly)
  while `a/0` for `a ≠ 0` is `±Infinity`; in this program every division
  site has a zero numerator whenever its denominator is zero, so the
  `±Infinity` case never arises.
* `Math.log` is modelled by an abstract function `lg : Frac → Frac` passed
  to every function that uses it.  Theorems assume of `lg` only the facts
  about the real logarithm they need (`0 ≤ (lg q).val` for `1 ≤ q.val`, …),
  and witnesses instantiate `lg` with a concrete function having those
  properties.
* A JS `Map` is an association list in insertion order: `set` of an existing
  key updates it in place, `set` of a new key appends, iteration follows the
  list.
* `Array.prototype.sort` with comparator `(a, b) => b.confidence - a.confidence`
  is modelled by a stable insertion sort: an element may stay in front of
  another unless the comparator is strictly positive (NaN comparisons keep
  the original order, matching stable JS engines).
-/

namespace NewsClassifier

/-- An exact fraction: JS numbers idealised as `num / den`.  Unnormalised:
operations never compute gcds, keeping them kernel-reducible.  Every
fraction built by the program has a positive denominator. -/
structure Frac where
  num : Int
  den : Nat
deriving DecidableEq

/-- The rational value denoted by a fraction. -/
def Frac.val (a : Frac) : ℚ := (a.num : ℚ) / (a.den : ℚ)

/-- The fraction `n / 1`. -/
def fofN (n : Nat) : Frac := ⟨n, 1⟩

/-- Fraction addition. -/
def fadd (a b : Frac) : Frac := ⟨a.num * b.den + b.num * a.den, a.den * b.den⟩

/-- Fraction subtraction. -/
def fsub (a b : Frac) : Frac := ⟨a.num * b.den - b.num * a.den, a.den * b.den⟩

/-- Fraction multiplication. -/
def fmul (a b : Frac) : Frac := ⟨a.num * b.num, a.den * b.den⟩

/-- Fraction division (callers guard against a zero divisor); the divisor's
sign is moved into the numerator so the denominator stays a `Nat`. -/
def fdiv (a b : Frac) : Frac := ⟨a.num * b.den * b.num.sign, a.den * b.num.natAbs⟩

/-- Is the denoted value zero (for a well-formed fraction)? -/
def Frac.isZero (a : Frac) : Bool := a.num == 0

/-- Is the denoted value strictly positive (for well-formed fractions)? -/
def fposB (a : Frac) : Bool := 0 < a.num

/-- Value comparison `a < b` by cross-multiplication (valid for positive
denominators). -/
def fltB (a b : Frac) : Bool := a.num * b.den < b.num * a.den

/-- `Math.min` on fractions. -/
def fmin (a b : Frac) : Frac := if fltB a b then a else b

/-- `Math.max` on fractions. -/
def fmax (a b : Frac) : Frac := if fltB a b then b else a

/-- JS numbers: `none` is NaN, `some` a finite number. -/
abbrev JsNum := Option Frac

/-- JS addition; NaN propagates. -/
def jadd : JsNum → JsNum → JsNum
  | some a, some b => some (fadd a b)
  | _, _ => none

/-- JS subtraction; NaN propagates. -/
def jsub : JsNum → JsNum → JsNum
  | some a, some b => some (fsub a b)
  | _, _ => none

/-- JS multiplication; NaN propagates (`0 * NaN = NaN` in JS). -/
def jmul : JsNum → JsNum → JsNum
  | some a, some b => some (fmul a b)
  | _, _ => none

/-- JS division; NaN propagates and `x / 0` is NaN.  (JS gives `±Infinity`
for `a / 0` with `a ≠ 0`; in this program a zero denominator only ever
occurs with a zero numerator, where JS also gives NaN.) -/
def jdiv : JsNum → JsNum → JsNum
  | some a, some b => if b.isZero then none else some (fdiv a b)
  | _, _ => none

/-- `Math.min`; returns NaN if either argument is NaN. -/
def jmin : JsNum → JsNum → JsNum
  | some a, some b => some (fmin a b)
  | _, _ => none

/-- Whether a comparator result is a (strictly) positive number; NaN is not. -/
def jposB : JsNum → Bool
  | some a => fposB a
  | none => false

/-- JS `x || d` for `x : number | undefined` with a numeric default:
`undefined` and `0` are falsy. -/
def jsOrF : Option Frac → Frac → Frac
  | some q, d => if q.isZero then d else q
  | none, d => d

/-- JS `x || d` where the stored number may be NaN: `undefined`, NaN and `0`
are all falsy. -/
def jsOrJ : Option JsNum → Frac → Frac
  | some (some q), d => if q.isZero then d else q
  | _, d => d

/-- JS `Map.prototype.set`: update in place if the key is present, else
append at the end (insertion order is preserved). -/
def mset {β : Type} : List (String × β) → String → β → List (String × β)
  | [], k, v => [(k, v)]
  | (k', v') :: rest, k, v =>
      if k' = k then (k', v) :: rest else (k', v') :: mset rest k v

/-- JS `Map.prototype.get`: `none` models `undefined`. -/
def mfind {β : Type} : List (String × β) → String → Option β
  | [], _ => none
  | (k', v') :: rest, k => if k' = k then some v' else mfind rest k

/-- Does the character list `hay` start with `needle`? -/
def startsWithL : List Char → List Char → Bool
  | _, [] => true
  | [], _ :: _ => false
  | c :: cs, d :: ds => c = d && startsWithL cs ds

/-- JS `String.prototype.includes`: does `needle` occur as a contiguous
substring of `hay`? -/
def hasSubL (needle : List Char) : List Char → Bool
  | [] => startsWithL [] needle
  | c :: t => startsWithL (c :: t) needle || hasSubL needle t

/-- `hay.includes(needle)` on strings. -/
def hasSub (hay needle : String) : Bool :=
  hasSubL needle.data hay.data

/-- Split a character list at spaces; empty pieces are produced around
consecutive separators (as JS `split` does), and are discarded later by the
length filter. -/
def splitSp : List Char → List Char → List String
  | acc, [] => [String.mk acc.reverse]
  | acc, c :: t =>
      if c = ' ' then String.mk acc.reverse :: splitSp [] t else splitSp (c :: acc) t

/-- JS `toLowerCase` restricted to ASCII, implemented over the character
list so that it reduces definitionally (the inputs considered are ASCII). -/
def lowerStr (s : String) : String := String.mk (s.data.map Char.toLower)

/-- JS `term.split(' ')`: split at every single space. -/
def splitWords (s : String) : List String := splitSp [] s.data

/-- Stable insertion: `x` is placed before the first element it may stay in
front of (`stays x y = true`). -/
def insertStable {α : Type} (stays : α → α → Bool) (x : α) : List α → List α
  | [] => [x]
  | y :: ys => if stays x y then x :: y :: ys else y :: insertStable stays x ys

/-- Stable insertion sort, modelling JS `Array.prototype.sort`. -/
def sortStable {α : Type} (stays : α → α → Bool) : List α → List α
  | [] => []
  | x :: xs => insertStable stays x (sortStable stays xs)

/-- The static per-category keyword lists (`categoryKeywords` in the source):
category name ↦ ordered tagged term lists, in declaration order. -/
def categoryKeywords : List (String × List (String × List String)) :=
  [("Technology",
    [("primary", ["ai", "technology", "software", "digital", "cyber", "tech", "computer", "internet", "blockchain", "robot", "code"]),
     ("secondary", ["innovation", "startup", "device", "app", "mobile", "data", "cloud", "programming", "algorithm", "developer"]),
     ("companies", ["google", "apple", "microsoft", "amazon", "meta", "tesla", "nvidia", "intel", "ibm", "oracle"]),
     ("concepts", ["artificial intelligence", "machine learning", "virtual reality", "augmented reality", "cryptocurrency", "5g", "quantum computing", "cybersecurity"]),
     ("products", ["iphone", "android", "windows", "linux", "ios", "web3", "neural network"])]),
   ("Business",
    [("primary", ["business", "market", "economy", "finance", "trade", "investment", "stock", "revenue", "profit"]),
     ("secondary", ["startup", "company", "industry", "corporate", "enterprise", "merger", "acquisition", "venture"]),
     ("financial", ["nasdaq", "dow jones", "sp500", "wall street", "ipo", "earnings", "shares", "dividend", "portfolio"]),
     ("concepts", ["quarterly report", "market analysis", "economic growth", "fiscal policy", "monetary policy", "inflation", "recession"]),
     ("sectors", ["banking", "retail", "manufacturing", "real estate", "energy", "automotive"])]),
   ("Politics",
    [("primary", ["politics", "government", "election", "policy", "congress", "senate", "democrat", "republican", "parliament"]),
     ("secondary", ["legislation", "vote", "campaign", "political", "president", "administration", "diplomatic", "governor"]),
     ("international", ["foreign policy", "international relations", "diplomacy", "treaty", "sanctions", "united nations", "eu"]),
     ("concepts", ["democracy", "constitution", "bipartisan", "legislative", "judiciary", "executive order"]),
     ("events", ["summit", "referendum", "inauguration", "impeachment", "coalition"])]),
   ("Sports",
    [("primary", ["sports", "game", "team", "player", "championship", "tournament", "match", "score", "athlete"]),
     ("secondary", ["win", "lose", "victory", "defeat", "season", "league", "coach", "stadium", "record"]),
     ("leagues", ["nfl", "nba", "mlb", "nhl", "fifa", "uefa", "olympics", "premier league", "formula 1"]),
     ("concepts", ["world cup", "super bowl", "playoffs", "final four", "grand slam", "medal", "draft"]),
     ("roles", ["quarterback", "striker", "pitcher", "defender", "manager", "referee"])]),
   ("Entertainment",
    [("primary", ["entertainment", "movie", "film", "music", "celebrity", "actor", "actress", "star", "director"]),
     ("secondary", ["hollywood", "tv", "show", "series", "album", "concert", "award", "performance", "cast"]),
     ("events", ["oscar", "grammy", "emmy", "golden globe", "festival", "premiere", "red carpet"]),
     ("concepts", ["box office", "streaming", "rating", "review", "debut", "sequel", "franchise"]),
     ("platforms", ["netflix", "disney", "hbo", "spotify", "amazon prime", "hulu"])]),
   ("Health",
    [("primary", ["health", "medical", "disease", "treatment", "patient", "doctor", "hospital", "medicine", "clinic"]),
     ("secondary", ["research", "study", "clinical", "therapy", "vaccine", "drug", "pharmaceutical", "diagnosis"]),
     ("conditions", ["cancer", "diabetes", "heart disease", "obesity", "mental health", "alzheimer", "covid"]),
     ("concepts", ["public health", "healthcare", "medical research", "clinical trial", "prevention", "wellness"]),
     ("specialists", ["surgeon", "physician", "nurse", "pediatrician", "psychiatrist"])]),
   ("Science",
    [("primary", ["science", "research", "study", "discovery", "scientist", "experiment", "theory", "evidence", "laboratory"]),
     ("secondary", ["scientific", "physics", "chemistry", "biology", "astronomy", "climate", "evolution", "genome"]),
     ("fields", ["quantum", "molecular", "genetic", "environmental", "neuroscience", "biochemistry", "astrophysics"]),
     ("concepts", ["peer review", "scientific method", "breakthrough", "hypothesis", "observation", "data analysis"]),
     ("institutions", ["nasa", "cern", "university", "laboratory", "institute"])])]

/-- The fixed category names, in declaration order (`Object.keys(categoryKeywords)`). -/
def categoryNames : List String := categoryKeywords.map Prod.fst

/-- The tagged lists of one category's keyword group, by tag. -/
def tagTerms (cat : List (String × List String)) (tag : String) : List String :=
  (mfind cat tag).getD []

/-- The weight `3.0` assigned to primary words. -/
def weight30 : Frac := ⟨3, 1⟩

/-- The weight `2.0` assigned to secondary words. -/
def weight20 : Frac := ⟨2, 1⟩

/-- The weight `1.5` assigned to words of the remaining term-class lists. -/
def weight15 : Frac := ⟨3, 2⟩

/-- The source's `primary`/`secondary` loops of `createWeightedVocabulary`:
assign `weight` to every space-separated word of every term, lower-cased.
`Map.set` overwrites an existing entry. -/
def setWords (vocab : List (String × Frac)) (weight : Frac) (terms : List String) :
    List (String × Frac) :=
  terms.foldl (fun v term =>
    (splitWords term).foldl (fun v word => mset v (lowerStr word) weight) v) vocab

/-- The source's loop over the remaining term-class lists: assign `weight`
only to words that have no entry yet (`!weightedVocab.has(...)`). -/
def setWordsIfAbsent (vocab : List (String × Frac)) (weight : Frac) (terms : List String) :
    List (String × Frac) :=
  terms.foldl (fun v term =>
    (splitWords term).foldl (fun v word =>
      if mfind v (lowerStr word) = none then mset v (lowerStr word) weight else v) v) vocab

/-- `createWeightedVocabulary` from the source: iterate categories in
declaration order; primary words get 3.0 and secondary words 2.0 (both by
unconditional `Map.set`), then every other tagged list assigns 1.5 to words
with no existing entry. -/
def createWeightedVocabulary : List (String × Frac) :=
  categoryKeywords.foldl (fun vocab cat =>
    let v1 := setWords vocab weight30 (tagTerms cat.2 "primary")
    let v2 := setWords v1 weight20 (tagTerms cat.2 "secondary")
    cat.2.foldl (fun v e =>
      if e.1 = "primary" ∨ e.1 = "secondary" then v
      else setWordsIfAbsent v weight15 e.2) v2) []

/-- The module-level `weightedVocabulary = createWeightedVocabulary()`.
For feasible kernel evaluation it is given as the precomputed association
list; the theorem `weightedVocabulary_built` below proves it equal to the
source-translated `createWeightedVocabulary`, so every use of the
precomputed list is faithful to the source's module initialisation. -/
def weightedVocabulary : List (String × Frac) :=
  [("ai", weight30), ("technology", weight30), ("software", weight30), ("digital", weight30), ("cyber", weight30),
   ("tech", weight30), ("computer", weight30), ("internet", weight30), ("blockchain", weight30), ("robot", weight30),
   ("code", weight30), ("innovation", weight20), ("startup", weight20), ("device", weight20), ("app", weight20),
   ("mobile", weight20), ("data", weight20), ("cloud", weight20), ("programming", weight20), ("algorithm", weight20),
   ("developer", weight20), ("google", weight15), ("apple", weight15), ("microsoft", weight15), ("amazon", weight15),
   ("meta", weight15), ("tesla", weight15), ("nvidia", weight15), ("intel", weight15), ("ibm", weight15),
   ("oracle", weight15), ("artificial", weight15), ("intelligence", weight15), ("machine", weight15), ("learning", weight15),
   ("virtual", weight15), ("reality", weight15), ("augmented", weight15), ("cryptocurrency", weight15), ("5g", weight15),
   ("quantum", weight15), ("computing", weight15), ("cybersecurity", weight15), ("iphone", weight15), ("android", weight15),
   ("windows", weight15), ("linux", weight15), ("ios", weight15), ("web3", weight15), ("neural", weight15),
   ("network", weight15), ("business", weight30), ("market", weight30), ("economy", weight30), ("finance", weight30),
   ("trade", weight30), ("investment", weight30), ("stock", weight30), ("revenue", weight30), ("profit", weight30),
   ("company", weight20), ("industry", weight20), ("corporate", weight20), ("enterprise", weight20), ("merger", weight20),
   ("acquisition", weight20), ("venture", weight20), ("nasdaq", weight15), ("dow", weight15), ("jones", weight15),
   ("sp500", weight15), ("wall", weight15), ("street", weight15), ("ipo", weight15), ("earnings", weight15),
   ("shares", weight15), ("dividend", weight15), ("portfolio", weight15), ("quarterly", weight15), ("report", weight15),
   ("analysis", weight15), ("economic", weight15), ("growth", weight15), ("fiscal", weight15), ("policy", weight30),
   ("monetary", weight15), ("inflation", weight15), ("recession", weight15), ("banking", weight15), ("retail", weight15),
   ("manufacturing", weight15), ("real", weight15), ("estate", weight15), ("energy", weight15), ("automotive", weight15),
   ("politics", weight30), ("government", weight30), ("election", weight30), ("congress", weight30), ("senate", weight30),
   ("democrat", weight30), ("republican", weight30), ("parliament", weight30), ("legislation", weight20), ("vote", weight20),
   ("campaign", weight20), ("political", weight20), ("president", weight20), ("administration", weight20), ("diplomatic", weight20),
   ("governor", weight20), ("foreign", weight15), ("international", weight15), ("relations", weight15), ("diplomacy", weight15),
   ("treaty", weight15), ("sanctions", weight15), ("united", weight15), ("nations", weight15), ("eu", weight15),
   ("democracy", weight15), ("constitution", weight15), ("bipartisan", weight15), ("legislative", weight15), ("judiciary", weight15),
   ("executive", weight15), ("order", weight15), ("summit", weight15), ("referendum", weight15), ("inauguration", weight15),
   ("impeachment", weight15), ("coalition", weight15), ("sports", weight30), ("game", weight30), ("team", weight30),
   ("player", weight30), ("championship", weight30), ("tournament", weight30), ("match", weight30), ("score", weight30),
   ("athlete", weight30), ("win", weight20), ("lose", weight20), ("victory", weight20), ("defeat", weight20),
   ("season", weight20), ("league", weight20), ("coach", weight20), ("stadium", weight20), ("record", weight20),
   ("nfl", weight15), ("nba", weight15), ("mlb", weight15), ("nhl", weight15), ("fifa", weight15),
   ("uefa", weight15), ("olympics", weight15), ("premier", weight15), ("formula", weight15), ("1", weight15),
   ("world", weight15), ("cup", weight15), ("super", weight15), ("bowl", weight15), ("playoffs", weight15),
   ("final", weight15), ("four", weight15), ("grand", weight15), ("slam", weight15), ("medal", weight15),
   ("draft", weight15), ("quarterback", weight15), ("striker", weight15), ("pitcher", weight15), ("defender", weight15),
   ("manager", weight15), ("referee", weight15), ("entertainment", weight30), ("movie", weight30), ("film", weight30),
   ("music", weight30), ("celebrity", weight30), ("actor", weight30), ("actress", weight30), ("star", weight30),
   ("director", weight30), ("hollywood", weight20), ("tv", weight20), ("show", weight20), ("series", weight20),
   ("album", weight20), ("concert", weight20), ("award", weight20), ("performance", weight20), ("cast", weight20),
   ("oscar", weight15), ("grammy", weight15), ("emmy", weight15), ("golden", weight15), ("globe", weight15),
   ("festival", weight15), ("premiere", weight15), ("red", weight15), ("carpet", weight15), ("box", weight15),
   ("office", weight15), ("streaming", weight15), ("rating", weight15), ("review", weight15), ("debut", weight15),
   ("sequel", weight15), ("franchise", weight15), ("netflix", weight15), ("disney", weight15), ("hbo", weight15),
   ("spotify", weight15), ("prime", weight15), ("hulu", weight15), ("health", weight30), ("medical", weight30),
   ("disease", weight30), ("treatment", weight30), ("patient", weight30), ("doctor", weight30), ("hospital", weight30),
   ("medicine", weight30), ("clinic", weight30), ("research", weight30), ("study", weight30), ("clinical", weight20),
   ("therapy", weight20), ("vaccine", weight20), ("drug", weight20), ("pharmaceutical", weight20), ("diagnosis", weight20),
   ("cancer", weight15), ("diabetes", weight15), ("heart", weight15), ("obesity", weight15), ("mental", weight15),
   ("alzheimer", weight15), ("covid", weight15), ("public", weight15), ("healthcare", weight15), ("trial", weight15),
   ("prevention", weight15), ("wellness", weight15), ("surgeon", weight15), ("physician", weight15), ("nurse", weight15),
   ("pediatrician", weight15), ("psychiatrist", weight15), ("science", weight30), ("discovery", weight30), ("scientist", weight30),
   ("experiment", weight30), ("theory", weight30), ("evidence", weight30), ("laboratory", weight30), ("scientific", weight20),
   ("physics", weight20), ("chemistry", weight20), ("biology", weight20), ("astronomy", weight20), ("climate", weight20),
   ("evolution", weight20), ("genome", weight20), ("molecular", weight15), ("genetic", weight15), ("environmental", weight15),
   ("neuroscience", weight15), ("biochemistry", weight15), ("astrophysics", weight15), ("peer", weight15), ("method", weight15),
   ("breakthrough", weight15), ("hypothesis", weight15), ("observation", weight15), ("nasa", weight15), ("cern", weight15),
   ("university", weight15), ("institute", weight15)]

/-- `weightedVocabulary.size` (keys are pairwise distinct by construction of
`mset`, so the length of the association list is the `Map` size). -/
def vocabSize : Nat := weightedVocabulary.length

/-- JS `\w` character class: ASCII letters, digits and underscore. -/
def isWordChar (c : Char) : Bool := c.isAlphanum || c = '_'

/-- `preprocessText` from the source: lower-case, replace every character
outside `\w` and `\s` by a space, split on whitespace runs, and drop tokens
of length ≤ 1.  (Replacing all non-word characters — whitespace included —
by a space and splitting at spaces produces the same tokens as the source's
regexes; the inputs considered are ASCII, where `Char.toLower` agrees with
JS `toLowerCase`.) -/
def preprocessText (text : String) : List String :=
  (splitSp [] ((lowerStr text).data.map (fun c => if isWordChar c then c else ' '))).filter
    (fun word => 1 < word.length)

/-- `calculateWeightedTfIdf` from the source: term frequencies over the
preprocessed words, then `tf * idf * wordWeight` per distinct word, where
`idf = lg (1 + size / (1 + (freq > 0 ? 1 : 0)))`.  All stored values are
finite numbers, so the score map carries plain fractions. -/
def calculateWeightedTfIdf (lg : Frac → Frac) (text : String) : List (String × Frac) :=
  let words := preprocessText text
  let wordFreq := words.foldl (fun m word =>
    mset m word (fadd (jsOrF (mfind m word) (fofN 0)) (fofN 1))) []
  wordFreq.foldl (fun scores e =>
    let wordWeight := jsOrF (mfind weightedVocabulary e.1) (fofN 1)
    let tf := fdiv e.2 (fofN words.length)
    let idf := lg (fadd (fofN 1)
      (fdiv (fofN vocabSize) (fadd (fofN 1) (if fposB e.2 then fofN 1 else fofN 0))))
    mset scores e.1 (fmul (fmul tf idf) wordWeight)) []

/-- One step of the term-frequency accumulation of `calculateWeightedTfIdf`
(a name for its loop body, used in lemmas). -/
def freqStep (m : List (String × Frac)) (word : String) : List (String × Frac) :=
  mset m word (fadd (jsOrF (mfind m word) (fofN 0)) (fofN 1))

/-- The score `calculateWeightedTfIdf` stores for one frequency entry
(a name for its loop body, used in lemmas): `(tf * idf) * wordWeight`. -/
def tfidfScoreOf (lg : Frac → Frac) (n : ℕ) (e : String × Frac) : Frac :=
  fmul (fmul (fdiv e.2 (fofN n))
      (lg (fadd (fofN 1)
        (fdiv (fofN vocabSize) (fadd (fofN 1) (if fposB e.2 then fofN 1 else fofN 0))))))
    (jsOrF (mfind weightedVocabulary e.1) (fofN 1))

/-- The accumulator loop of `calculateSemanticSimilarity`: running
`(similarity, totalWeight)` over every word of every term of every tagged
list of the category (terms are tokenized with `preprocessText`). -/
def semanticAccum (textScores : List (String × Frac)) (category : String) : Frac × Frac :=
  ((mfind categoryKeywords category).getD []).foldl (fun acc e =>
    e.2.foldl (fun acc term =>
      (preprocessText term).foldl (fun acc word =>
        let wordScore := jsOrF (mfind textScores word) (fofN 0)
        let wordWeight := jsOrF (mfind weightedVocabulary word) (fofN 1)
        (fadd acc.1 (fmul wordScore wordWeight), fadd acc.2 wordWeight)) acc) acc) 
    (fofN 0, fofN 0)

/-- `calculateSemanticSimilarity` from the source:
`totalWeight > 0 ? similarity / totalWeight : 0`. -/
def calculateSemanticSimilarity (textScores : List (String × Frac)) (category : String) : Frac :=
  let p := semanticAccum textScores category
  if fposB p.2 then fdiv p.1 p.2 else fofN 0

/-- The per-category `(score, matches)` accumulation of
`analyzeContextPatterns`: a term whose lower-cased form occurs as a literal
substring of the lower-cased raw text contributes 4 (primary), 3 (secondary)
or 2 (any other tag) to `score` and 1 to `matches`. -/
def contextAccum (text : String) (kw : List (String × List String)) : Frac × Frac :=
  kw.foldl (fun acc e =>
    e.2.foldl (fun acc term =>
      if hasSub (lowerStr text) (lowerStr term) then
        (fadd acc.1 (if e.1 = "primary" then fofN 4
                     else if e.1 = "secondary" then fofN 3 else fofN 2),
         fadd acc.2 (fofN 1))
      else acc) acc) (fofN 0, fofN 0)

/-- One category's final context score:
`(score * (1 + matches / textLength)) / (1 + lg (1 + textLength))`.
For an input with no tokens the density is `0 / 0`, i.e. NaN. -/
def contextScoreOf (lg : Frac → Frac) (text : String) (kw : List (String × List String)) :
    JsNum :=
  let textLength := (preprocessText text).length
  let p := contextAccum text kw
  let density := jdiv (some p.2) (some (fofN textLength))
  jdiv (jmul (some p.1) (jadd (some (fofN 1)) density))
    (some (fadd (fofN 1) (lg (fadd (fofN 1) (fofN textLength)))))

/-- `analyzeContextPatterns` from the source: category name ↦ context score.
(The source computes the preprocessed word count once before the category
loop; `contextScoreOf` recomputes the same pure value per category.) -/
def analyzeContextPatterns (lg : Frac → Frac) (text : String) : List (String × JsNum) :=
  categoryKeywords.foldl (fun scores e => mset scores e.1 (contextScoreOf lg text e.2)) []

/-- One entry of the returned `predictions` array. -/
structure Prediction where
  category : String
  confidence : JsNum
deriving DecidableEq

/-- The record returned by `classifyNews`. -/
structure ClassifyResult where
  category : String
  confidence : JsNum
  predictions : List Prediction
deriving DecidableEq

/-- The `0.6` weighting of the semantic score. -/
def w06 : Frac := ⟨3, 5⟩

/-- The `0.4` weighting of the context score. -/
def w04 : Frac := ⟨2, 5⟩

/-- The `predictions` map of `classifyNews` before normalization:
`combined = semantic * 0.6 + (contextScores.get(category) || 0) * 0.4`.
`||` treats `undefined`, NaN and `0` alike, so the combined score is always
a number. -/
def combinedScores (lg : Frac → Frac) (text : String) : List (String × Frac) :=
  let textScores := calculateWeightedTfIdf lg text
  let contextScores := analyzeContextPatterns lg text
  categoryNames.foldl (fun m category =>
    let semanticScore := calculateSemanticSimilarity textScores category
    let contextScore := jsOrJ (mfind contextScores category) (fofN 0)
    mset m category (fadd (fmul semanticScore w06) (fmul contextScore w04))) []

/-- `Math.max(...values)`.  All stored scores are numbers; `Math.max` of an
empty spread would be `-Infinity`, but the list always has 7 entries here. -/
def jsMaxList : List Frac → Frac
  | [] => fofN 0
  | x :: xs => xs.foldl fmax x

/-- `maxScore` of `classifyNews`. -/
def maxCombined (lg : Frac → Frac) (text : String) : Frac :=
  jsMaxList ((combinedScores lg text).map Prod.snd)

/-- The sort comparator `(a, b) => b.confidence - a.confidence`: `a` may stay
in front of `b` unless the comparator value is a strictly positive number
(a NaN comparison keeps the original order). -/
def staysBefore (a b : Prediction) : Bool :=
  !(jposB (jsub b.confidence a.confidence))

/-- The normalised confidence of one combined score:
`Math.min(score / maxScore * 100, 100)`. -/
def confOf (score maxScore : Frac) : JsNum :=
  jmin (jmul (jdiv (some score) (some maxScore)) (some (fofN 100))) (some (fofN 100))

/-- One category's combined score, as computed inside the `combinedScores`
loop (a name for the loop body, used to state structure lemmas). -/
def combinedOf (lg : Frac → Frac) (text : String) (c : String) : Frac :=
  fadd (fmul (calculateSemanticSimilarity (calculateWeightedTfIdf lg text) c) w06)
    (fmul (jsOrJ (mfind (analyzeContextPatterns lg text) c) (fofN 0)) w04)

/-- The unsorted prediction entries of `classifyNews` (names with normalised
confidences, in declaration order). -/
def predsOf (lg : Frac → Frac) (text : String) : List Prediction :=
  (combinedScores lg text).map (fun e =>
    { category := e.1, confidence := confOf e.2 (maxCombined lg text) })

/-- `classifyNews` from the source: combine the two scorers per category,
normalize each score against the maximum, sort descending by confidence
(stable), and return the top entry together with the full list.  The list
always has 7 entries, so `headD` never takes its default. -/
def classifyNews (lg : Frac → Frac) (text : String) : ClassifyResult :=
  let predictions := combinedScores lg text
  let maxScore := jsMaxList (predictions.map Prod.snd)
  let normalizedPredictions :=
    sortStable staysBefore (predictions.map (fun e =>
      { category := e.1, confidence := confOf e.2 maxScore }))
  { category := (normalizedPredictions.headD ⟨"", none⟩).category
    confidence := (normalizedPredictions.headD ⟨"", none⟩).confidence
    predictions := normalizedPredictions }

/-- A concrete stand-in for `Math.log`, used to instantiate theorems at
concrete inputs: `logLin q = q - 1` shares with the real logarithm every
property the theorems assume of the abstract `lg` (value `0` at `1`,
nonnegative on `[1, ∞)`, positive on `(1, ∞)`). -/
def logLin (q : Frac) : Frac := fsub q (fofN 1)

/-- The primary/secondary write sequence of one category: the words (with
their weights) that `createWeightedVocabulary` writes unconditionally, in
write order. -/
def psWritesOf (cat : List (String × List String)) : List (String × Frac) :=
  (tagTerms cat "primary").flatMap (fun term =>
    (splitWords term).map (fun w => (lowerStr w, weight30)))
  ++ (tagTerms cat "secondary").flatMap (fun term =>
    (splitWords term).map (fun w => (lowerStr w, weight20)))

/-- The other-class (weight 1.5) write attempts of one category, in order. -/
def otherWritesOf (cat : List (String × List String)) : List (String × Frac) :=
  (cat.filter (fun e => ¬(e.1 = "primary" ∨ e.1 = "secondary"))).flatMap (fun e =>
    e.2.flatMap (fun term => (splitWords term).map (fun w => (lowerStr w, weight15))))

/-- The full write-attempt sequence of `createWeightedVocabulary`, categories
in declaration order, primary → secondary → other within each category. -/
def allWrites : List (String × Frac) :=
  categoryKeywords.flatMap (fun c => psWritesOf c.2 ++ otherWritesOf c.2)

/-- The unconditional (primary/secondary) write sequence over all categories. -/
def psWrites : List (String × Frac) :=
  categoryKeywords.flatMap (fun c => psWritesOf c.2)

/-- All words of other-class (weight 1.5) lists. -/
def otherWords : List String := (categoryKeywords.flatMap (fun c => otherWritesOf c.2)).map Prod.fst

/-- The weight of a word's first occurrence in iteration order (the weight
the specification's first-assignment-wins rule predicts). -/
def firstWeightOf (w : String) : Option Frac := mfind allWrites w

/-- The weight of a word's last primary/secondary occurrence, if any. -/
def lastPsWeightOf (w : String) : Option Frac := mfind psWrites.reverse w

/-- The weight the vocabulary builder actually produces: the last
primary/secondary write wins (those writes overwrite), and words only on
other-class lists get 1.5 (those writes never overwrite). -/
def specWeight (w : String) : Option Frac :=
  match lastPsWeightOf w with
  | some q => some q
  | none => if otherWords.contains w then some weight15 else none

/-- The vocabulary weight used by the spec's score formulas: the stored
weight, defaulting to 1.0 for absent words. -/
def vocabWeightVal (w : String) : ℚ := ((mfind weightedVocabulary w).getD (fofN 1)).val

/-- The fraction `1 + size / (1 + 1)` whose logarithm is the (collapsed)
idf of every present word. -/
def idfArg : Frac := fadd (fofN 1) (fdiv (fofN vocabSize) (fadd (fofN 1) (fofN 1)))

/-- The spec's §4.4 score formula: `tf * idf * vocabularyWeight(w)` with
`tf = freq(w)/N` and the word-independent collapsed idf. -/
def tfIdfVal (lg : Frac → Frac) (text w : String) : ℚ :=
  (((preprocessText text).count w : ℚ) / ((preprocessText text).length : ℚ))
    * (lg idfArg).val * vocabWeightVal w

/-- Does this term produce a context match for this text (case-insensitive
literal substring of the raw text)? -/
def termHit (text term : String) : Bool := hasSub (lowerStr text) (lowerStr term)

/-- One step of the context accumulation of `analyzeContextPatterns`, over a
`(tag, term)` pair (a name for its loop body, used in lemmas). -/
def ctxStep (text : String) (acc : Frac × Frac) (p : String × String) : Frac × Frac :=
  if termHit text p.2 then
    (fadd acc.1 (if p.1 = "primary" then fofN 4 else if p.1 = "secondary" then fofN 3 else fofN 2),
     fadd acc.2 (fofN 1))
  else acc

/-- All `(tag, term)` pairs of a keyword group, in iteration order. -/
def ctxPairsOf (kw : List (String × List String)) : List (String × String) :=
  kw.flatMap (fun e => e.2.map (fun t => (e.1, t)))

/-- The spec's §4.6 match weight of a term-class tag. -/
def tagWeightN (tag : String) : ℕ :=
  if tag = "primary" then 4 else if tag = "secondary" then 3 else 2

/-- The spec's §4.6 accumulated match weight of a category for a text: the
sum, over all matching terms, of the tag weights. -/
def ctxWeightN (text : String) (kw : List (String × List String)) : ℕ :=
  (((ctxPairsOf kw).filter (fun p => termHit text p.2)).map (fun p => tagWeightN p.1)).sum

/-- The spec's §4.6 match count of a category for a text. -/
def ctxMatchCount (text : String) (kw : List (String × List String)) : ℕ :=
  ((ctxPairsOf kw).filter (fun p => termHit text p.2)).length

/-- All preprocessed words of all terms of all tagged lists of a category,
in iteration order (the word sequence the semantic scorer walks). -/
def catWordsOf (c : String) : List String :=
  ((mfind categoryKeywords c).getD []).flatMap (fun e =>
    e.2.flatMap (fun t => preprocessText t))

/-- One step of the semantic accumulation, for one keyword word. -/
def semStep (textScores : List (String × Frac)) (acc : Frac × Frac) (word : String) :
    Frac × Frac :=
  (fadd acc.1 (fmul (jsOrF (mfind textScores word) (fofN 0))
      (jsOrF (mfind weightedVocabulary word) (fofN 1))),
   fadd acc.2 (jsOrF (mfind weightedVocabulary word) (fofN 1)))

/-- The position of a category in the fixed declaration order. -/
def catRank (c : String) : ℕ := categoryNames.indexOf c

/-- The scenario input of the spec's §8 Business test. -/
def fedText : String :=
  "The Federal Reserve raised interest rates amid inflation concerns affecting the stock market"

/-- The modelling assumptions on the abstract `Math.log` stand-in: it returns
well-formed numbers, and it is nonnegative on arguments `≥ 1` (all the
program's `Math.log` arguments are `≥ 1`).  The real logarithm and `logLin`
both satisfy this. -/
def LogOk (lg : Frac → Frac) : Prop :=
  (∀ f, 0 < f.den → 0 < (lg f).den) ∧ (∀ f, 0 < f.den → 1 ≤ f.val → 0 ≤ (lg f).val)

/-- Value-level strict comparison of two JS numbers: only meaningful (and
only true) when both are actual numbers; NaN compares false. -/
def jsLtVal (a b : JsNum) : Prop :=
  ∃ x y, a = some x ∧ b = some y ∧ x.val < y.val

/-- Value-level equality of two JS numbers: two NaNs tie, two numbers tie
when they denote the same rational, a NaN never ties a number.  (This is the
tie notion of the sort: the comparator `b - a` is not positive either way.) -/
def jsEqVal (a b : JsNum) : Prop :=
  match a, b with
  | none, none => True
  | some x, some y => x.val = y.val
  | _, _ => False

/-- `psWrites.reverse`, precomputed (see `psRevList_eq`). -/
def psRevList : List (String × Frac) :=
   [("genome", weight20), ("evolution", weight20), ("climate", weight20), ("astronomy", weight20), ("biology",
   weight20), ("chemistry", weight20), ("physics", weight20), ("scientific", weight20), ("laboratory",
   weight30), ("evidence", weight30), ("theory", weight30), ("experiment", weight30), ("scientist", weight30),
   ("discovery", weight30), ("study", weight30), ("research", weight30), ("science", weight30), ("diagnosis",
   weight20), ("pharmaceutical", weight20), ("drug", weight20), ("vaccine", weight20), ("therapy", weight20),
   ("clinical", weight20), ("study", weight20), ("research", weight20), ("clinic", weight30), ("medicine",
   weight30), ("hospital", weight30), ("doctor", weight30), ("patient", weight30), ("treatment", weight30),
   ("disease", weight30), ("medical", weight30), ("health", weight30), ("cast", weight20), ("performance",
   weight20), ("award", weight20), ("concert", weight20), ("album", weight20), ("series", weight20), ("show",
   weight20), ("tv", weight20), ("hollywood", weight20), ("director", weight30), ("star", weight30),
   ("actress", weight30), ("actor", weight30), ("celebrity", weight30), ("music", weight30), ("film",
   weight30), ("movie", weight30), ("entertainment", weight30), ("record", weight20), ("stadium", weight20),
   ("coach", weight20), ("league", weight20), ("season", weight20), ("defeat", weight20), ("victory",
   weight20), ("lose", weight20), ("win", weight20), ("athlete", weight30), ("score", weight30), ("match",
   weight30), ("tournament", weight30), ("championship", weight30), ("player", weight30), ("team", weight30),
   ("game", weight30), ("sports", weight30), ("governor", weight20), ("diplomatic", weight20),
   ("administration", weight20), ("president", weight20), ("political", weight20), ("campaign", weight20),
   ("vote", weight20), ("legislation", weight20), ("parliament", weight30), ("republican", weight30),
   ("democrat", weight30), ("senate", weight30), ("congress", weight30), ("policy", weight30), ("election",
   weight30), ("government", weight30), ("politics", weight30), ("venture", weight20), ("acquisition",
   weight20), ("merger", weight20), ("enterprise", weight20), ("corporate", weight20), ("industry", weight20),
   ("company", weight20), ("startup", weight20), ("profit", weight30), ("revenue", weight30), ("stock",
   weight30), ("investment", weight30), ("trade", weight30), ("finance", weight30), ("economy", weight30),
   ("market", weight30), ("business", weight30), ("developer", weight20), ("algorithm", weight20),
   ("programming", weight20), ("cloud", weight20), ("data", weight20), ("mobile", weight20), ("app",
   weight20), ("device", weight20), ("startup", weight20), ("innovation", weight20), ("code", weight30),
   ("robot", weight30), ("blockchain", weight30), ("internet", weight30), ("computer", weight30), ("tech",
   weight30), ("cyber", weight30), ("digital", weight30), ("software", weight30), ("technology", weight30),
   ("ai", weight30)]

/-- `otherWords`, precomputed (see `otherWordsList_eq`). -/
def otherWordsList : List String :=
   ["google", "apple", "microsoft", "amazon", "meta", "tesla", "nvidia", "intel", "ibm", "oracle",
   "artificial", "intelligence", "machine", "learning", "virtual", "reality", "augmented", "reality",
   "cryptocurrency", "5g", "quantum", "computing", "cybersecurity", "iphone", "android", "windows", "linux",
   "ios", "web3", "neural", "network", "nasdaq", "dow", "jones", "sp500", "wall", "street", "ipo", "earnings",
   "shares", "dividend", "portfolio", "quarterly", "report", "market", "analysis", "economic", "growth",
   "fiscal", "policy", "monetary", "policy", "inflation", "recession", "banking", "retail", "manufacturing",
   "real", "estate", "energy", "automotive", "foreign", "policy", "international", "relations", "diplomacy",
   "treaty", "sanctions", "united", "nations", "eu", "democracy", "constitution", "bipartisan", "legislative",
   "judiciary", "executive", "order", "summit", "referendum", "inauguration", "impeachment", "coalition",
   "nfl", "nba", "mlb", "nhl", "fifa", "uefa", "olympics", "premier", "league", "formula", "1", "world",
   "cup", "super", "bowl", "playoffs", "final", "four", "grand", "slam", "medal", "draft", "quarterback",
   "striker", "pitcher", "defender", "manager", "referee", "oscar", "grammy", "emmy", "golden", "globe",
   "festival", "premiere", "red", "carpet", "box", "office", "streaming", "rating", "review", "debut",
   "sequel", "franchise", "netflix", "disney", "hbo", "spotify", "amazon", "prime", "hulu", "cancer",
   "diabetes", "heart", "disease", "obesity", "mental", "health", "alzheimer", "covid", "public", "health",
   "healthcare", "medical", "research", "clinical", "trial", "prevention", "wellness", "surgeon", "physician",
   "nurse", "pediatrician", "psychiatrist", "quantum", "molecular", "genetic", "environmental",
   "neuroscience", "biochemistry", "astrophysics", "peer", "review", "scientific", "method", "breakthrough",
   "hypothesis", "observation", "data", "analysis", "nasa", "cern", "university", "laboratory", "institute"]

/-- `allWrites.map Prod.fst`, precomputed (see `allWritesKeys_eq`). -/
def allWritesKeys : List String :=
   ["ai", "technology", "software", "digital", "cyber", "tech", "computer", "internet", "blockchain", "robot",
   "code", "innovation", "startup", "device", "app", "mobile", "data", "cloud", "programming", "algorithm",
   "developer", "google", "apple", "microsoft", "amazon", "meta", "tesla", "nvidia", "intel", "ibm", "oracle",
   "artificial", "intelligence", "machine", "learning", "virtual", "reality", "augmented", "reality",
   "cryptocurrency", "5g", "quantum", "computing", "cybersecurity", "iphone", "android", "windows", "linux",
   "ios", "web3", "neural", "network", "business", "market", "economy", "finance", "trade", "investment",
   "stock", "revenue", "profit", "startup", "company", "industry", "corporate", "enterprise", "merger",
   "acquisition", "venture", "nasdaq", "dow", "jones", "sp500", "wall", "street", "ipo", "earnings", "shares",
   "dividend", "portfolio", "quarterly", "report", "market", "analysis", "economic", "growth", "fiscal",
   "policy", "monetary", "policy", "inflation", "recession", "banking", "retail", "manufacturing", "real",
   "estate", "energy", "automotive", "politics", "government", "election", "policy", "congress", "senate",
   "democrat", "republican", "parliament", "legislation", "vote", "campaign", "political", "president",
   "administration", "diplomatic", "governor", "foreign", "policy", "international", "relations", "diplomacy",
   "treaty", "sanctions", "united", "nations", "eu", "democracy", "constitution", "bipartisan", "legislative",
   "judiciary", "executive", "order", "summit", "referendum", "inauguration", "impeachment", "coalition",
   "sports", "game", "team", "player", "championship", "tournament", "match", "score", "athlete", "win",
   "lose", "victory", "defeat", "season", "league", "coach", "stadium", "record", "nfl", "nba", "mlb", "nhl",
   "fifa", "uefa", "olympics", "premier", "league", "formula", "1", "world", "cup", "super", "bowl",
   "playoffs", "final", "four", "grand", "slam", "medal", "draft", "quarterback", "striker", "pitcher",
   "defender", "manager", "referee", "entertainment", "movie", "film", "music", "celebrity", "actor",
   "actress", "star", "director", "hollywood", "tv", "show", "series", "album", "concert", "award",
   "performance", "cast", "oscar", "grammy", "emmy", "golden", "globe", "festival", "premiere", "red",
   "carpet", "box", "office", "streaming", "rating", "review", "debut", "sequel", "franchise", "netflix",
   "disney", "hbo", "spotify", "amazon", "prime", "hulu", "health", "medical", "disease", "treatment",
   "patient", "doctor", "hospital", "medicine", "clinic", "research", "study", "clinical", "therapy",
   "vaccine", "drug", "pharmaceutical", "diagnosis", "cancer", "diabetes", "heart", "disease", "obesity",
   "mental", "health", "alzheimer", "covid", "public", "health", "healthcare", "medical", "research",
   "clinical", "trial", "prevention", "wellness", "surgeon", "physician", "nurse", "pediatrician",
   "psychiatrist", "science", "research", "study", "discovery", "scientist", "experiment", "theory",
   "evidence", "laboratory", "scientific", "physics", "chemistry", "biology", "astronomy", "climate",
   "evolution", "genome", "quantum", "molecular", "genetic", "environmental", "neuroscience", "biochemistry",
   "astrophysics", "peer", "review", "scientific", "method", "breakthrough", "hypothesis", "observation",
   "data", "analysis", "nasa", "cern", "university", "laboratory", "institute"]

/-- `specWeight` over the precomputed write tables (equal to `specWeight`,
theorem `specWeight_eq`; kernel evaluation of one lookup is then cheap). -/
def specWeightFast (w : String) : Option Frac :=
  match mfind psRevList w with
  | some q => some q
  | none => if otherWordsList.contains w then some weight15 else none

/-! #### A numeric mirror of the string-keyed vocabulary computations

The kernel evaluates string equality by destructuring character lists, which
makes the large vocabulary evaluations expensive to check.  `encode` injects
strings into `ℕ` (base-`2^32` digits of the code points, with a leading
sentinel digit `1`), and `msetE`/`mfindE` and the encoded builder mirror
`mset`/`mfind` and `createWeightedVocabulary` over encoded keys.  The mirror
is connected to the real definitions by the `*_encode` lemmas (via
injectivity of `encode`), so every fact checked on the mirror transfers to
the source translation; the mirror itself is never what a claim is about. -/

def encodeL : List Char → ℕ
  | [] => 1
  | c :: cs => c.toNat + 4294967296 * encodeL cs

def encode (s : String) : ℕ := encodeL s.data

/-- Encode the key of an association-list entry. -/
def eP {β : Type} (e : String × β) : ℕ × β := (encode e.1, e.2)

def msetE {β : Type} : List (ℕ × β) → ℕ → β → List (ℕ × β)
  | [], k, v => [(k, v)]
  | (k', v') :: rest, k, v =>
      if k' = k then (k', v) :: rest else (k', v') :: msetE rest k v

def mfindE {β : Type} : List (ℕ × β) → ℕ → Option β
  | [], _ => none
  | (k', v') :: rest, k => if k' = k then some v' else mfindE rest k

def setWordsE (vocab : List (ℕ × Frac)) (weight : Frac) (terms : List String) :
    List (ℕ × Frac) :=
  terms.foldl (fun v term =>
    (splitWords term).foldl (fun v word => msetE v (encode (lowerStr word)) weight) v) vocab

def setWordsIfAbsentE (vocab : List (ℕ × Frac)) (weight : Frac) (terms : List String) :
    List (ℕ × Frac) :=
  terms.foldl (fun v term =>
    (splitWords term).foldl (fun v word =>
      if mfindE v (encode (lowerStr word)) = none then msetE v (encode (lowerStr word)) weight
      else v) v) vocab

/-- `createWeightedVocabulary` over encoded keys. -/
def createE : List (ℕ × Frac) :=
  categoryKeywords.foldl (fun vocab cat =>
    let v1 := setWordsE vocab weight30 (tagTerms cat.2 "primary")
    let v2 := setWordsE v1 weight20 (tagTerms cat.2 "secondary")
    cat.2.foldl (fun v e =>
      if e.1 = "primary" ∨ e.1 = "secondary" then v
      else setWordsIfAbsentE v weight15 e.2) v2) []

/-- `specWeightFast` over encoded keys. -/
def specWeightE (k : ℕ) : Option Frac :=
  match mfindE (psRevList.map eP) k with
  | some q => some q
  | none => if (otherWordsList.map encode).contains k then some weight15 else none

/-- A category's keyword group (empty for an unknown category name); a
convenient handle for stating per-category context facts. -/
def kwOf (c : String) : List (String × List String) := (mfind categoryKeywords c).getD []

/-! ### Value semantics of the fraction operations -/

theorem val_fofN (n : Nat) : (fofN n).val = n := by
  simp [fofN, Frac.val]

theorem den_fofN (n : Nat) : (fofN n).den = 1 := rfl

theorem den_fadd (a b : Frac) : (fadd a b).den = a.den * b.den := rfl

theorem den_fsub (a b : Frac) : (fsub a b).den = a.den * b.den := rfl

theorem den_fmul (a b : Frac) : (fmul a b).den = a.den * b.den := rfl

theorem den_fdiv (a b : Frac) : (fdiv a b).den = a.den * b.num.natAbs := rfl

theorem val_fadd {a b : Frac} (ha : 0 < a.den) (hb : 0 < b.den) :
    (fadd a b).val = a.val + b.val := by
  have ha' : ((a.den : ℚ)) ≠ 0 := by exact_mod_cast ha.ne'
  have hb' : ((b.den : ℚ)) ≠ 0 := by exact_mod_cast hb.ne'
  simp only [fadd, Frac.val]
  push_cast
  field_simp

theorem val_fsub {a b : Frac} (ha : 0 < a.den) (hb : 0 < b.den) :
    (fsub a b).val = a.val - b.val := by
  have ha' : ((a.den : ℚ)) ≠ 0 := by exact_mod_cast ha.ne'
  have hb' : ((b.den : ℚ)) ≠ 0 := by exact_mod_cast hb.ne'
  simp only [fsub, Frac.val]
  push_cast
  field_simp
  ring

theorem val_fmul (a b : Frac) : (fmul a b).val = a.val * b.val := by
  simp only [fmul, Frac.val]
  push_cast
  rw [div_mul_div_comm]

theorem val_fdiv {a b : Frac} (ha : 0 < a.den) (hbd : 0 < b.den) (hb : b.num ≠ 0) :
    (fdiv a b).val = a.val / b.val := by
  have ha' : ((a.den : ℚ)) ≠ 0 := by exact_mod_cast ha.ne'
  have hbd' : ((b.den : ℚ)) ≠ 0 := by exact_mod_cast hbd.ne'
  have hq : ((b.num : ℚ)) ≠ 0 := by exact_mod_cast hb
  simp only [fdiv, Frac.val]
  rcases hb.lt_or_lt with h | h
  · have hs : b.num.sign = -1 := Int.sign_eq_neg_one_iff_neg.mpr h
    have hneg : ((b.num : ℚ)) < 0 := by exact_mod_cast h
    have habs : ((b.num.natAbs : ℚ)) = -((b.num : ℚ)) := by
      simp [Int.cast_natAbs, abs_of_neg hneg]
    rw [hs]
    push_cast [habs]
    field_simp
  · have hs : b.num.sign = 1 := Int.sign_eq_one_iff_pos.mpr h
    have hpos : (0 : ℚ) < ((b.num : ℚ)) := by exact_mod_cast h
    have habs : ((b.num.natAbs : ℚ)) = ((b.num : ℚ)) := by
      simp [Int.cast_natAbs, abs_of_pos hpos]
    rw [hs]
    push_cast [habs]
    field_simp

theorem isZero_iff {a : Frac} (ha : 0 < a.den) : a.isZero = true ↔ a.val = 0 := by
  have ha' : ((a.den : ℚ)) ≠ 0 := by exact_mod_cast ha.ne'
  simp [Frac.isZero, Frac.val, div_eq_zero_iff, ha']

theorem fposB_iff {a : Frac} (ha : 0 < a.den) : fposB a = true ↔ 0 < a.val := by
  have ha' : (0 : ℚ) < (a.den : ℚ) := by exact_mod_cast ha
  simp only [fposB, decide_eq_true_eq, Frac.val]
  rw [div_pos_iff]
  constructor
  · intro h
    exact Or.inl ⟨by exact_mod_cast h, ha'⟩
  · rintro (⟨h, _⟩ | ⟨_, h⟩)
    · exact_mod_cast h
    · exact absurd ha' (not_lt.mpr h.le)

theorem fltB_iff {a b : Frac} (ha : 0 < a.den) (hb : 0 < b.den) :
    fltB a b = true ↔ a.val < b.val := by
  have ha' : (0 : ℚ) < (a.den : ℚ) := by exact_mod_cast ha
  have hb' : (0 : ℚ) < (b.den : ℚ) := by exact_mod_cast hb
  simp only [fltB, decide_eq_true_eq, Frac.val]
  rw [div_lt_div_iff₀ ha' hb']
  constructor
  · intro h
    exact_mod_cast h
  · intro h
    exact_mod_cast h

theorem val_fmax {a b : Frac} (ha : 0 < a.den) (hb : 0 < b.den) :
    (fmax a b).val = max a.val b.val := by
  unfold fmax
  by_cases h : fltB a b
  · rw [if_pos h, max_eq_right ((fltB_iff ha hb).mp h).le]
  · rw [if_neg h]
    have : ¬ a.val < b.val := fun hc => h ((fltB_iff ha hb).mpr hc)
    rw [max_eq_left (not_lt.mp this)]

theorem fmax_mem (a b : Frac) : fmax a b = a ∨ fmax a b = b := by
  unfold fmax
  by_cases h : fltB a b
  · exact Or.inr (if_pos h)
  · exact Or.inl (if_neg h)

theorem val_fmin {a b : Frac} (ha : 0 < a.den) (hb : 0 < b.den) :
    (fmin a b).val = min a.val b.val := by
  unfold fmin
  by_cases h : fltB a b
  · rw [if_pos h, min_eq_left ((fltB_iff ha hb).mp h).le]
  · rw [if_neg h]
    have : ¬ a.val < b.val := fun hc => h ((fltB_iff ha hb).mpr hc)
    rw [min_eq_right (not_lt.mp this)]

theorem val_jsOrF_some {q : Frac} (hq : 0 < q.den) (d : Frac) (hd : d.val = 0) :
    (jsOrF (some q) d).val = q.val := by
  simp only [jsOrF]
  by_cases h : q.isZero
  · rw [if_pos h, hd, ((isZero_iff hq).mp h).symm]
  · rw [if_neg h]

theorem den_jsOrF_some {q : Frac} (hq : 0 < q.den) {d : Frac} (hd : 0 < d.den) :
    0 < (jsOrF (some q) d).den := by
  simp only [jsOrF]
  by_cases h : q.isZero
  · rwa [if_pos h]
  · rwa [if_neg h]

/-! ### Association list (JS `Map`) lemmas -/

theorem mfind_mset_self {β : Type} (m : List (String × β)) (k : String) (v : β) :
    mfind (mset m k v) k = some v := by
  induction m with
  | nil => simp [mset, mfind]
  | cons e rest ih =>
    obtain ⟨k', v'⟩ := e
    by_cases h : k' = k
    · simp [mset, mfind, h]
    · simp [mset, mfind, h, ih]

theorem mfind_mset_ne {β : Type} (m : List (String × β)) (k j : String) (v : β)
    (h : k ≠ j) : mfind (mset m k v) j = mfind m j := by
  induction m with
  | nil => simp [mset, mfind, fun hc : k = j => h hc]
  | cons e rest ih =>
    obtain ⟨k', v'⟩ := e
    by_cases hk : k' = k
    · subst hk
      simp [mset, mfind, fun hc : k' = j => h hc]
    · simp only [mset, if_neg hk]
      by_cases hj : k' = j
      · simp [mfind, hj]
      · simp [mfind, hj, ih]

theorem mset_fresh {β : Type} (m : List (String × β)) (k : String) (v : β)
    (h : mfind m k = none) : mset m k v = m ++ [(k, v)] := by
  induction m with
  | nil => simp [mset]
  | cons e rest ih =>
    obtain ⟨k', v'⟩ := e
    by_cases hk : k' = k
    · simp [mfind, hk] at h
    · simp only [mfind, if_neg hk] at h
      simp [mset, hk, ih h]

theorem mfind_append_of_none {β : Type} (l₁ l₂ : List (String × β)) (k : String)
    (h : mfind l₁ k = none) : mfind (l₁ ++ l₂) k = mfind l₂ k := by
  induction l₁ with
  | nil => simp
  | cons e rest ih =>
    obtain ⟨k', v'⟩ := e
    by_cases hk : k' = k
    · simp [mfind, hk] at h
    · simp only [mfind, if_neg hk] at h
      simp [mfind, hk, ih h]

theorem foldl_mset_build {β γ : Type} (key : γ → String) (f : γ → β) :
    ∀ (l : List γ) (init : List (String × β)),
      (∀ e ∈ l, mfind init (key e) = none) → (l.map key).Nodup →
      l.foldl (fun m e => mset m (key e) (f e)) init = init ++ l.map (fun e => (key e, f e)) := by
  intro l
  induction l with
  | nil => intro init _ _; simp
  | cons e rest ih =>
    intro init hfresh hnd
    have he : mfind init (key e) = none := hfresh e (by simp)
    have hstep : mset init (key e) (f e) = init ++ [(key e, f e)] := mset_fresh _ _ _ he
    simp only [List.foldl_cons, hstep]
    simp only [List.map_cons, List.nodup_cons] at hnd
    rw [ih (init ++ [(key e, f e)]) ?fresh hnd.2]
    · simp
    case fresh =>
      intro e' he'
      have hne : key e ≠ key e' := fun hc => hnd.1 (hc ▸ List.mem_map_of_mem key he')
      rw [mfind_append_of_none _ _ _ (hfresh e' (by simp [he']))]
      simp [mfind, hne]

theorem mfind_build {β γ : Type} (key : γ → String) (f : γ → β) :
    ∀ (l : List γ) (k : String),
      mfind (l.map (fun e => (key e, f e))) k =
        (l.find? (fun e => key e == k)).map f := by
  intro l
  induction l with
  | nil => intro k; simp [mfind]
  | cons e rest ih =>
    intro k
    by_cases h : key e = k
    · rw [List.map_cons]
      simp only [mfind, if_pos h]
      rw [List.find?_cons_of_pos _ (by simp [h])]
      simp
    · rw [List.map_cons]
      simp only [mfind, if_neg h]
      rw [List.find?_cons_of_neg _ (by simp [h]), ih]

/-! ### Stable sort lemmas -/

theorem insertStable_perm {α : Type} (stays : α → α → Bool) (x : α) :
    ∀ l : List α, (insertStable stays x l).Perm (x :: l) := by
  intro l
  induction l with
  | nil => simp [insertStable]
  | cons y ys ih =>
    simp only [insertStable]
    by_cases h : stays x y
    · rw [if_pos h]
    · rw [if_neg h]
      exact (List.Perm.cons y ih).trans (List.Perm.swap x y ys)

theorem sortStable_perm {α : Type} (stays : α → α → Bool) :
    ∀ l : List α, (sortStable stays l).Perm l := by
  intro l
  induction l with
  | nil => simp [sortStable]
  | cons x xs ih =>
    simp only [sortStable]
    exact (insertStable_perm stays x (sortStable stays xs)).trans (List.Perm.cons x ih)

theorem insertStable_split {α : Type} (stays : α → α → Bool) (x : α) :
    ∀ l : List α, ∃ l₁ l₂, insertStable stays x l = l₁ ++ x :: l₂ ∧ l = l₁ ++ l₂ ∧
      (∀ y ∈ l₁, stays x y = false) ∧ (∀ y, l₂.head? = some y → stays x y = true) := by
  intro l
  induction l with
  | nil => exact ⟨[], [], by simp [insertStable], by simp, by simp, by simp⟩
  | cons y ys ih =>
    by_cases h : stays x y
    · exact ⟨[], y :: ys, by simp [insertStable, h], by simp, by simp,
        fun z hz => by simp at hz; simpa [hz.symm] using h⟩
    · obtain ⟨l₁, l₂, h1, h2, h3, h4⟩ := ih
      refine ⟨y :: l₁, l₂, ?_, by simp [h2], ?_, h4⟩
      · simp only [insertStable, Bool.not_eq_true, if_neg h, h1, List.cons_append]
      · intro z hz
        rcases List.mem_cons.mp hz with hz | hz
        · rw [hz]
          exact Bool.eq_false_iff.mpr h
        · exact h3 z hz

theorem pairwise_sortStable {α : Type} (stays : α → α → Bool) :
    ∀ l : List α,
      (∀ a ∈ l, ∀ b ∈ l, stays a b = true ∨ stays b a = true) →
      (∀ a ∈ l, ∀ b ∈ l, ∀ c ∈ l, stays a b = true → stays b c = true → stays a c = true) →
      (sortStable stays l).Pairwise (fun a b => stays a b = true) := by
  intro l
  induction l with
  | nil => intro _ _; simp [sortStable]
  | cons x xs ih =>
    intro htot htrans
    have hmemx : x ∈ x :: xs := by simp
    have hsub : ∀ a ∈ sortStable stays xs, a ∈ x :: xs := fun a ha =>
      List.mem_cons_of_mem x ((sortStable_perm stays xs).mem_iff.mp ha)
    have hs : (sortStable stays xs).Pairwise (fun a b => stays a b = true) :=
      ih (fun a ha b hb => htot a (by simp [ha]) b (by simp [hb]))
        (fun a ha b hb c hc => htrans a (by simp [ha]) b (by simp [hb]) c (by simp [hc]))
    obtain ⟨l₁, l₂, h1, h2, h3, h4⟩ := insertStable_split stays x (sortStable stays xs)
    show (insertStable stays x (sortStable stays xs)).Pairwise _
    rw [h1]
    rw [h2] at hs
    rw [List.pairwise_append] at hs
    obtain ⟨hp1, hp2, hp12⟩ := hs
    rw [List.pairwise_append]
    refine ⟨hp1, ?_, ?_⟩
    · rw [List.pairwise_cons]
      refine ⟨?_, hp2⟩
      intro z hz
      rcases hl2 : l₂ with _ | ⟨y₀, ys₀⟩
      · simp [hl2] at hz
      · have hy₀ : stays x y₀ = true := h4 y₀ (by simp [hl2])
        rcases List.mem_cons.mp (hl2 ▸ hz) with hz' | hz'
        · exact hz' ▸ hy₀
        · have hy₀z : stays y₀ z = true := by
            have := List.pairwise_cons.mp (hl2 ▸ hp2)
            exact this.1 z hz'
          have hy₀mem : y₀ ∈ x :: xs := hsub y₀ (h2 ▸ (by simp [hl2]))
          have hzmem : z ∈ x :: xs := hsub z (h2 ▸ (by simp [hl2, hz']))
          exact htrans x hmemx y₀ hy₀mem z hzmem hy₀ hy₀z
    · intro a ha b hb
      rcases List.mem_cons.mp hb with hb' | hb'
      · have hamem : a ∈ x :: xs := hsub a (h2 ▸ List.mem_append_left _ ha)
        rcases htot a hamem x hmemx with h' | h'
        · rw [hb']
          exact h'
        · have hfalse : stays x a = false := h3 a ha
          rw [hfalse] at h'
          exact absurd h' (by simp)
      · exact hp12 a ha b hb'

theorem pairwise_stable_sortStable {α : Type} (stays : α → α → Bool) (R : α → α → Prop)
    (hcompat : ∀ a b, stays a b = false → R b a) :
    ∀ l : List α, l.Pairwise R → (sortStable stays l).Pairwise R := by
  intro l
  induction l with
  | nil => intro _; simp [sortStable]
  | cons x xs ih =>
    intro hp
    rw [List.pairwise_cons] at hp
    obtain ⟨hx, hxs⟩ := hp
    have hs : (sortStable stays xs).Pairwise R := ih hxs
    have hsubmem : ∀ a ∈ sortStable stays xs, a ∈ xs := fun a ha =>
      (sortStable_perm stays xs).mem_iff.mp ha
    obtain ⟨l₁, l₂, h1, h2, h3, _⟩ := insertStable_split stays x (sortStable stays xs)
    show (insertStable stays x (sortStable stays xs)).Pairwise R
    rw [h1]
    rw [h2] at hs
    rw [List.pairwise_append] at hs
    obtain ⟨hp1, hp2, hp12⟩ := hs
    rw [List.pairwise_append]
    refine ⟨hp1, ?_, ?_⟩
    · rw [List.pairwise_cons]
      refine ⟨?_, hp2⟩
      intro z hz
      exact hx z (hsubmem z (h2 ▸ List.mem_append_right _ hz))
    · intro a ha b hb
      rcases List.mem_cons.mp hb with hb' | hb'
      · subst hb'
        exact hcompat b a (h3 a ha)
      · exact hp12 a ha b hb'

/-! ### Structure of the classifier pipeline -/

theorem analyzeContextPatterns_eq (lg : Frac → Frac) (text : String) :
    analyzeContextPatterns lg text =
      categoryKeywords.map (fun e => (e.1, contextScoreOf lg text e.2)) := by
  unfold analyzeContextPatterns
  rw [foldl_mset_build Prod.fst (fun e => contextScoreOf lg text e.2) categoryKeywords []
    (fun e _ => rfl) (by decide)]
  simp

theorem foldl_mset_build_id {β : Type} (f : String → β) (l : List String) (h : l.Nodup) :
    l.foldl (fun m c => mset m c (f c)) [] = l.map (fun c => (c, f c)) := by
  have hb := foldl_mset_build id f l [] (fun e _ => rfl) (by simpa using h)
  simpa using hb

theorem combinedScores_eq (lg : Frac → Frac) (text : String) :
    combinedScores lg text = categoryNames.map (fun c => (c, combinedOf lg text c)) := by
  unfold combinedScores combinedOf
  rw [foldl_mset_build_id
    (fun c => fadd (fmul (calculateSemanticSimilarity (calculateWeightedTfIdf lg text) c) w06)
      (fmul (jsOrJ (mfind (analyzeContextPatterns lg text) c) (fofN 0)) w04))
    categoryNames (by decide)]

theorem classifyNews_eq (lg : Frac → Frac) (text : String) :
    classifyNews lg text =
      { category := ((sortStable staysBefore (predsOf lg text)).headD ⟨"", none⟩).category
        confidence := ((sortStable staysBefore (predsOf lg text)).headD ⟨"", none⟩).confidence
        predictions := sortStable staysBefore (predsOf lg text) } := rfl

theorem jsMaxList_mem : ∀ l : List Frac, l ≠ [] → jsMaxList l ∈ l := by
  have haux : ∀ (l : List Frac) (acc : Frac), l.foldl fmax acc = acc ∨ l.foldl fmax acc ∈ l := by
    intro l
    induction l with
    | nil => intro acc; exact Or.inl rfl
    | cons y ys ih =>
      intro acc
      rcases ih (fmax acc y) with h | h
      · rcases fmax_mem acc y with h' | h'
        · exact Or.inl (by rw [List.foldl_cons, h, h'])
        · exact Or.inr (by rw [List.foldl_cons, h, h']; simp)
      · exact Or.inr (by simp [List.foldl_cons]; right; exact h)
  intro l hne
  match l, hne with
  | x :: xs, _ =>
    rcases haux xs x with h | h
    · have hx : jsMaxList (x :: xs) = x := by simpa [jsMaxList] using h
      rw [hx]
      simp
    · exact List.mem_cons_of_mem x (by simpa [jsMaxList] using h)

theorem jsMaxList_ge (l : List Frac) (hd : ∀ x ∈ l, 0 < x.den) :
    ∀ x ∈ l, x.val ≤ (jsMaxList l).val := by
  have haux : ∀ (m : List Frac) (acc : Frac), 0 < acc.den → (∀ x ∈ m, 0 < x.den) →
      acc.val ≤ (m.foldl fmax acc).val ∧ ∀ x ∈ m, x.val ≤ (m.foldl fmax acc).val := by
    intro m
    induction m with
    | nil => intro acc _ _; exact ⟨le_refl _, by simp⟩
    | cons y ys ih =>
      intro acc hacc hm
      have hy : 0 < y.den := hm y (by simp)
      have hstep : 0 < (fmax acc y).den := by
        rcases fmax_mem acc y with h | h
        · rwa [h]
        · rwa [h]
      have hys : ∀ x ∈ ys, 0 < x.den := fun x hx => hm x (by simp [hx])
      obtain ⟨h1, h2⟩ := ih (fmax acc y) hstep hys
      have hv : (fmax acc y).val = max acc.val y.val := val_fmax hacc hy
      constructor
      · rw [List.foldl_cons]
        exact le_trans (by rw [hv]; exact le_max_left _ _) h1
      · intro x hx
        rcases List.mem_cons.mp hx with hx' | hx'
        · rw [List.foldl_cons]
          subst hx'
          exact le_trans (by rw [hv]; exact le_max_right _ _) h1
        · rw [List.foldl_cons]
          exact h2 x hx'
  intro x hx
  match l, hx with
  | y :: ys, hx =>
    have hy : 0 < y.den := hd y (by simp)
    have hys : ∀ z ∈ ys, 0 < z.den := fun z hz => hd z (by simp [hz])
    obtain ⟨h1, h2⟩ := haux ys y hy hys
    rcases List.mem_cons.mp hx with hx' | hx'
    · subst hx'
      simpa [jsMaxList] using h1
    · simpa [jsMaxList] using h2 x hx'

theorem confOf_of_isZero {s M : Frac} (hM : M.isZero = true) : confOf s M = none := by
  simp [confOf, jdiv, jmul, jmin, hM]

theorem confOf_of_not_isZero {s M : Frac} (hM : M.isZero = false) :
    confOf s M = some (fmin (fmul (fdiv s M) (fofN 100)) (fofN 100)) := by
  simp [confOf, jdiv, jmul, jmin, hM]

/-! ### Flattening the nested scorer loops -/

theorem foldl_flatMap {α β γ : Type} (g : α → List β) (f : γ → β → γ) :
    ∀ (l : List α) (init : γ),
      (l.flatMap g).foldl f init = l.foldl (fun acc x => (g x).foldl f acc) init := by
  intro l
  induction l with
  | nil => intro init; simp
  | cons x xs ih =>
    intro init
    simp only [List.flatMap_cons, List.foldl_append, List.foldl_cons]
    exact ih _

theorem fadd_fofN (a b : ℕ) : fadd (fofN a) (fofN b) = fofN (a + b) := by
  simp only [fadd, fofN, Frac.mk.injEq]
  constructor
  · push_cast
    ring
  · simp

theorem find?_assoc {β : Type} : ∀ (m : List (String × β)) (k : String),
    m.find? (fun e => e.1 == k) = (mfind m k).map (fun v => (k, v)) := by
  intro m
  induction m with
  | nil => intro k; simp [mfind]
  | cons e rest ih =>
    intro k
    obtain ⟨k', v'⟩ := e
    by_cases h : k' = k
    · subst h
      rw [List.find?_cons_of_pos _ (by simp)]
      simp [mfind]
    · rw [List.find?_cons_of_neg _ (by simp [h])]
      simp only [mfind, if_neg h]
      exact ih k

theorem mfind_eq_none_iff {β : Type} : ∀ (m : List (String × β)) (k : String),
    mfind m k = none ↔ k ∉ m.map Prod.fst := by
  intro m
  induction m with
  | nil => intro k; simp [mfind]
  | cons e rest ih =>
    intro k
    obtain ⟨k', v'⟩ := e
    by_cases h : k' = k
    · simp [mfind, h]
    · simp only [mfind, if_neg h, List.map_cons, List.mem_cons, not_or]
      rw [ih]
      constructor
      · intro hk
        exact ⟨fun hc => h hc.symm, hk⟩
      · intro hk
        exact hk.2

theorem keys_mset_found {β : Type} : ∀ (m : List (String × β)) (k : String) (v : β),
    mfind m k ≠ none → (mset m k v).map Prod.fst = m.map Prod.fst := by
  intro m
  induction m with
  | nil => intro k v h; simp [mfind] at h
  | cons e rest ih =>
    intro k v h
    obtain ⟨k', v'⟩ := e
    by_cases hk : k' = k
    · simp [mset, hk]
    · simp only [mfind, if_neg hk] at h
      simp only [mset, if_neg hk, List.map_cons]
      rw [ih k v h]

theorem keys_nodup_mset {β : Type} (m : List (String × β)) (k : String) (v : β)
    (h : (m.map Prod.fst).Nodup) : ((mset m k v).map Prod.fst).Nodup := by
  by_cases hf : mfind m k = none
  · rw [mset_fresh m k v hf]
    have hk : k ∉ m.map Prod.fst := (mfind_eq_none_iff m k).mp hf
    simp only [List.map_append, List.map_cons, List.map_nil]
    rw [List.nodup_append]
    refine ⟨h, by simp, ?_⟩
    intro a ha
    simp only [List.mem_singleton]
    intro hc
    exact hk (hc ▸ ha)
  · rw [keys_mset_found m k v hf]
    exact h

/-! ### The term-frequency map -/

theorem freq_fold_aux : ∀ (l : List String) (m : List (String × Frac)) (rep : String → ℕ),
    (∀ v, mfind m v = if rep v = 0 then none else some (fofN (rep v))) →
    ∀ w, mfind (l.foldl freqStep m) w =
      if rep w + l.count w = 0 then none else some (fofN (rep w + l.count w)) := by
  intro l
  induction l with
  | nil =>
    intro m rep hm w
    simpa using hm w
  | cons u us ih =>
    intro m rep hm w
    have hstep : ∀ v, mfind (freqStep m u) v =
        if (if v = u then rep v + 1 else rep v) = 0 then none
        else some (fofN (if v = u then rep v + 1 else rep v)) := by
      intro v
      by_cases hv : v = u
      · subst hv
        unfold freqStep
        rw [mfind_mset_self, hm v]
        by_cases h0 : rep v = 0
        · simp [h0, jsOrF, fadd_fofN]
        · have hnz : (fofN (rep v)).isZero = false := by
            simp [fofN, Frac.isZero]
            omega
          have h1 : ¬(rep v + 1 = 0) := by omega
          simp [jsOrF, h0, hnz, fadd_fofN, h1]
      · unfold freqStep
        rw [mfind_mset_ne _ _ _ _ (fun hc : u = v => hv hc.symm), hm v, if_neg hv]
    have := ih (freqStep m u) (fun v => if v = u then rep v + 1 else rep v) hstep w
    rw [List.foldl_cons, this]
    by_cases hw : w = u
    · subst hw
      simp only [eq_self_iff_true, if_true, List.count_cons_self]
      have h1 : rep w + 1 + us.count w = rep w + (us.count w + 1) := by omega
      rw [h1]
    · simp only [if_neg hw]
      rw [List.count_cons_of_ne hw]

theorem mfind_freq (words : List String) (w : String) :
    mfind (words.foldl freqStep []) w =
      if words.count w = 0 then none else some (fofN (words.count w)) := by
  have := freq_fold_aux words [] (fun _ => 0) (fun v => by simp [mfind]) w
  simpa using this

theorem keys_nodup_freq (words : List String) :
    ((words.foldl freqStep []).map Prod.fst).Nodup := by
  have haux : ∀ (l : List String) (m : List (String × Frac)),
      (m.map Prod.fst).Nodup → ((l.foldl freqStep m).map Prod.fst).Nodup := by
    intro l
    induction l with
    | nil => intro m hm; simpa using hm
    | cons u us ih =>
      intro m hm
      rw [List.foldl_cons]
      exact ih _ (keys_nodup_mset _ _ _ hm)
  exact haux words [] (by simp)

/-! ### The weighted tf-idf map -/

theorem tfidf_unfold (lg : Frac → Frac) (text : String) :
    calculateWeightedTfIdf lg text =
      ((preprocessText text).foldl freqStep []).foldl
        (fun scores e => mset scores e.1 (tfidfScoreOf lg (preprocessText text).length e)) [] :=
  rfl

theorem tfidf_mfind (lg : Frac → Frac) (text : String) (w : String) :
    mfind (calculateWeightedTfIdf lg text) w =
      if (preprocessText text).count w = 0 then none
      else some (tfidfScoreOf lg (preprocessText text).length
        (w, fofN ((preprocessText text).count w))) := by
  rw [tfidf_unfold]
  rw [foldl_mset_build Prod.fst (tfidfScoreOf lg (preprocessText text).length)
    ((preprocessText text).foldl freqStep []) [] (fun e _ => rfl)
    (keys_nodup_freq (preprocessText text))]
  rw [List.nil_append, mfind_build, find?_assoc, mfind_freq]
  by_cases h : (preprocessText text).count w = 0
  · simp [h]
  · simp [h]

theorem mfind_mem {β : Type} : ∀ (m : List (String × β)) (k : String) (v : β),
    mfind m k = some v → (k, v) ∈ m := by
  intro m
  induction m with
  | nil => intro k v h; simp [mfind] at h
  | cons e rest ih =>
    intro k v h
    obtain ⟨k', v'⟩ := e
    by_cases hk : k' = k
    · subst hk
      simp only [mfind, if_pos rfl, eq_self_iff_true, if_true, Option.some.injEq] at h
      simp [h]
    · simp only [mfind, if_neg hk] at h
      exact List.mem_cons_of_mem _ (ih k v h)

/-! ### The semantic similarity accumulation -/

theorem semanticAccum_eq (ts : List (String × Frac)) (c : String) :
    semanticAccum ts c = (catWordsOf c).foldl (semStep ts) (fofN 0, fofN 0) := by
  unfold semanticAccum catWordsOf
  rw [foldl_flatMap]
  simp only [foldl_flatMap]
  rfl

/-! ### The context pattern accumulation -/

theorem ctx_fold_aux (text : String) : ∀ (ps : List (String × String)) (a b : ℕ),
    ps.foldl (ctxStep text) (fofN a, fofN b) =
      (fofN (a + (((ps.filter (fun p => termHit text p.2)).map (fun p => tagWeightN p.1)).sum)),
       fofN (b + (ps.filter (fun p => termHit text p.2)).length)) := by
  intro ps
  induction ps with
  | nil => intro a b; simp
  | cons p rest ih =>
    intro a b
    by_cases h : termHit text p.2
    · have hstep : ctxStep text (fofN a, fofN b) p = (fofN (a + tagWeightN p.1), fofN (b + 1)) := by
        unfold ctxStep tagWeightN
        rw [if_pos h]
        by_cases h1 : p.1 = "primary"
        · simp [h1, fadd_fofN]
        · by_cases h2 : p.1 = "secondary"
          · simp [h1, h2, fadd_fofN]
          · simp [h1, h2, fadd_fofN]
      rw [List.foldl_cons, hstep, ih]
      rw [List.filter_cons_of_pos (by simpa using h)]
      simp only [List.map_cons, List.sum_cons, List.length_cons]
      have e1 : a + tagWeightN p.1 +
          ((rest.filter (fun p => termHit text p.2)).map (fun p => tagWeightN p.1)).sum =
          a + (tagWeightN p.1 +
            ((rest.filter (fun p => termHit text p.2)).map (fun p => tagWeightN p.1)).sum) := by
        omega
      have e2 : b + 1 + (rest.filter (fun p => termHit text p.2)).length =
          b + ((rest.filter (fun p => termHit text p.2)).length + 1) := by omega
      rw [e1, e2]
    · rw [List.foldl_cons]
      have hstep : ctxStep text (fofN a, fofN b) p = (fofN a, fofN b) := by
        unfold ctxStep
        rw [if_neg h]
      rw [hstep, ih, List.filter_cons_of_neg (by simpa using h)]

theorem contextAccum_eq (text : String) (kw : List (String × List String)) :
    contextAccum text kw = (fofN (ctxWeightN text kw), fofN (ctxMatchCount text kw)) := by
  have h2 : contextAccum text kw = (ctxPairsOf kw).foldl (ctxStep text) (fofN 0, fofN 0) := by
    unfold contextAccum ctxPairsOf
    rw [foldl_flatMap]
    simp only [List.foldl_map]
    rfl
  rw [h2, ctx_fold_aux]
  simp [ctxWeightN, ctxMatchCount]

theorem mfind_analyze (lg : Frac → Frac) (text : String) (c : String) :
    mfind (analyzeContextPatterns lg text) c =
      (mfind categoryKeywords c).map (fun kw => contextScoreOf lg text kw) := by
  rw [analyzeContextPatterns_eq]
  rw [mfind_build Prod.fst (fun e => contextScoreOf lg text e.2) categoryKeywords c]
  rw [find?_assoc]
  cases mfind categoryKeywords c with
  | none => rfl
  | some kw => rfl

/-! ### Facts about the stored vocabulary weights -/

set_option maxRecDepth 4000

theorem vocab_entries_good :
    weightedVocabulary.all (fun e =>
      decide (0 < e.2.den) && !e.2.isZero && decide ((e.2.den : ℤ) ≤ e.2.num)) = true := by
  decide

theorem vocab_fact {w : String} {q : Frac} (h : mfind weightedVocabulary w = some q) :
    0 < q.den ∧ q.isZero = false ∧ (q.den : ℤ) ≤ q.num := by
  have hm := mfind_mem _ _ _ h
  have hall := List.all_eq_true.mp vocab_entries_good _ hm
  simp only [Bool.and_eq_true, decide_eq_true_eq, Bool.not_eq_true'] at hall
  exact ⟨hall.1.1, hall.1.2, hall.2⟩

theorem wt_den_pos (w : String) : 0 < (jsOrF (mfind weightedVocabulary w) (fofN 1)).den := by
  cases hf : mfind weightedVocabulary w with
  | none => simp [jsOrF, fofN]
  | some q =>
    obtain ⟨h1, h2, _⟩ := vocab_fact hf
    simp [jsOrF, h2, h1, fofN]

theorem wt_ge_one (w : String) : 1 ≤ (jsOrF (mfind weightedVocabulary w) (fofN 1)).val := by
  cases hf : mfind weightedVocabulary w with
  | none => simp [jsOrF, fofN, Frac.val]
  | some q =>
    obtain ⟨h1, h2, h3⟩ := vocab_fact hf
    simp only [jsOrF, h2, Bool.false_eq_true, if_false]
    rw [Frac.val, le_div_iff₀ (by exact_mod_cast h1)]
    rw [one_mul]
    exact_mod_cast h3

theorem wt_val_eq (w : String) :
    (jsOrF (mfind weightedVocabulary w) (fofN 1)).val = vocabWeightVal w := by
  unfold vocabWeightVal
  cases hf : mfind weightedVocabulary w with
  | none => simp [jsOrF]
  | some q =>
    obtain ⟨_, h2, _⟩ := vocab_fact hf
    simp [jsOrF, h2]

/-- All structural facts about one semantic accumulation pass at once:
positive denominators, the total weight grows by at least one per word, the
similarity stays nonnegative when every word score is, and stays zero when
every word score is. -/
theorem semFold_master (ts : List (String × Frac)) (hts : ∀ e ∈ ts, 0 < e.2.den) :
    ∀ (ws : List String) (acc : Frac × Frac), 0 < acc.1.den → 0 < acc.2.den →
      0 < ((ws.foldl (semStep ts) acc).1).den ∧
      0 < ((ws.foldl (semStep ts) acc).2).den ∧
      acc.2.val + ws.length ≤ ((ws.foldl (semStep ts) acc).2).val ∧
      ((∀ w ∈ ws, 0 ≤ (jsOrF (mfind ts w) (fofN 0)).val) → 0 ≤ acc.1.val →
        0 ≤ ((ws.foldl (semStep ts) acc).1).val) ∧
      ((∀ w ∈ ws, (jsOrF (mfind ts w) (fofN 0)).num = 0) → acc.1.num = 0 →
        ((ws.foldl (semStep ts) acc).1).num = 0) := by
  intro ws
  induction ws with
  | nil =>
    intro acc h1 h2
    exact ⟨h1, h2, by simp, fun _ h => h, fun _ h => h⟩
  | cons w ws' ih =>
    intro acc h1 h2
    have hwden : 0 < (jsOrF (mfind weightedVocabulary w) (fofN 1)).den := wt_den_pos w
    have hwge : 1 ≤ (jsOrF (mfind weightedVocabulary w) (fofN 1)).val := wt_ge_one w
    have hsden : 0 < (jsOrF (mfind ts w) (fofN 0)).den := by
      cases hf : mfind ts w with
      | none => simp [jsOrF, fofN]
      | some q =>
        have hq := hts _ (mfind_mem _ _ _ hf)
        by_cases hz : q.isZero
        · simp [jsOrF, hz, fofN]
        · simpa [jsOrF, hz] using hq
    have hs1 : (semStep ts acc w).1 = fadd acc.1
        (fmul (jsOrF (mfind ts w) (fofN 0)) (jsOrF (mfind weightedVocabulary w) (fofN 1))) := rfl
    have hs2 : (semStep ts acc w).2 = fadd acc.2
        (jsOrF (mfind weightedVocabulary w) (fofN 1)) := rfl
    have hd1 : 0 < ((semStep ts acc w).1).den := by
      rw [hs1, den_fadd, den_fmul]
      exact Nat.mul_pos h1 (Nat.mul_pos hsden hwden)
    have hd2 : 0 < ((semStep ts acc w).2).den := by
      rw [hs2, den_fadd]
      exact Nat.mul_pos h2 hwden
    obtain ⟨r1, r2, r3, r4, r5⟩ := ih (semStep ts acc w) hd1 hd2
    rw [List.foldl_cons]
    refine ⟨r1, r2, ?_, ?_, ?_⟩
    · have hstep2 : ((semStep ts acc w).2).val =
          acc.2.val + (jsOrF (mfind weightedVocabulary w) (fofN 1)).val := by
        rw [hs2]
        exact val_fadd h2 hwden
      have hlen : ((w :: ws').length : ℚ) = (ws'.length : ℚ) + 1 := by
        rw [List.length_cons]
        push_cast
        ring
      rw [hlen]
      have hg : acc.2.val + ((ws'.length : ℚ) + 1) ≤ ((semStep ts acc w).2).val + ws'.length := by
        rw [hstep2]
        linarith
      exact le_trans hg r3
    · intro hnn hacc
      have hw0 : 0 ≤ (jsOrF (mfind ts w) (fofN 0)).val := hnn w (by simp)
      have hstep1 : ((semStep ts acc w).1).val = acc.1.val +
          (jsOrF (mfind ts w) (fofN 0)).val * (jsOrF (mfind weightedVocabulary w) (fofN 1)).val := by
        rw [hs1, val_fadd h1 (by rw [den_fmul]; exact Nat.mul_pos hsden hwden), val_fmul]
      refine r4 (fun v hv => hnn v (by simp [hv])) ?_
      rw [hstep1]
      have : 0 ≤ (jsOrF (mfind ts w) (fofN 0)).val *
          (jsOrF (mfind weightedVocabulary w) (fofN 1)).val :=
        mul_nonneg hw0 (le_trans zero_le_one hwge)
      linarith
    · intro hz hacc
      have hw0 : (jsOrF (mfind ts w) (fofN 0)).num = 0 := hz w (by simp)
      refine r5 (fun v hv => hz v (by simp [hv])) ?_
      rw [hs1]
      simp [fadd, fmul, hacc, hw0]

theorem mfind_of_mem_nodup {β : Type} :
    ∀ (m : List (String × β)), (m.map Prod.fst).Nodup → ∀ e ∈ m, mfind m e.1 = some e.2 := by
  intro m
  induction m with
  | nil => intro _ e he; simp at he
  | cons x rest ih =>
    intro hnd e he
    obtain ⟨k', v'⟩ := x
    simp only [List.map_cons, List.nodup_cons] at hnd
    rcases List.mem_cons.mp he with he' | he'
    · subst he'
      simp [mfind]
    · have hne : k' ≠ e.1 := by
        intro hc
        exact hnd.1 (hc ▸ List.mem_map_of_mem Prod.fst he')
      simp only [mfind, if_neg hne]
      exact ih hnd.2 e he'

theorem idfArg_den : idfArg.den = 2 := rfl

theorem tfidfScore_facts (lg : Frac → Frac) (text : String) (w : String)
    (hc : (preprocessText text).count w ≠ 0) (hlgden : 0 < (lg idfArg).den) :
    0 < (tfidfScoreOf lg (preprocessText text).length
        (w, fofN ((preprocessText text).count w))).den ∧
      (tfidfScoreOf lg (preprocessText text).length
        (w, fofN ((preprocessText text).count w))).val = tfIdfVal lg text w := by
  have hcpos : 0 < (preprocessText text).count w := Nat.pos_of_ne_zero hc
  have hN : 0 < (preprocessText text).length :=
    lt_of_lt_of_le hcpos (List.count_le_length w (preprocessText text))
  have hpos : fposB (fofN ((preprocessText text).count w)) = true := by
    simp only [fposB, fofN, decide_eq_true_eq]
    exact_mod_cast hcpos
  unfold tfidfScoreOf
  simp only [hpos, if_true]
  have hidf : fadd (fofN 1) (fdiv (fofN vocabSize) (fadd (fofN 1) (fofN 1))) = idfArg := rfl
  rw [hidf]
  have hdivden : (fdiv (fofN ((preprocessText text).count w))
      (fofN ((preprocessText text).length))).den = (preprocessText text).length := by
    simp [fdiv, fofN]
  have hNne : ((preprocessText text).length : ℤ) ≠ 0 := by exact_mod_cast hN.ne'
  constructor
  · rw [den_fmul, den_fmul, hdivden]
    exact Nat.mul_pos (Nat.mul_pos hN hlgden) (wt_den_pos w)
  · rw [val_fmul, val_fmul]
    rw [val_fdiv (by simp [fofN]) (by simp [fofN]) (by simpa [fofN] using hNne)]
    rw [val_fofN, val_fofN, wt_val_eq]
    unfold tfIdfVal
    ring

theorem tfidf_keys_nodup (lg : Frac → Frac) (text : String) :
    ((calculateWeightedTfIdf lg text).map Prod.fst).Nodup := by
  rw [tfidf_unfold]
  rw [foldl_mset_build Prod.fst (tfidfScoreOf lg (preprocessText text).length)
    ((preprocessText text).foldl freqStep []) [] (fun e _ => rfl)
    (keys_nodup_freq (preprocessText text))]
  rw [List.nil_append]
  have hmm : (List.map Prod.fst
      (((preprocessText text).foldl freqStep []).map
        (fun e => (e.1, tfidfScoreOf lg (preprocessText text).length e)))) =
      ((preprocessText text).foldl freqStep []).map Prod.fst := by
    rw [List.map_map]
    rfl
  rw [hmm]
  exact keys_nodup_freq (preprocessText text)

theorem tfidf_entries_den_pos (lg : Frac → Frac) (text : String)
    (hlgden : 0 < (lg idfArg).den) :
    ∀ e ∈ calculateWeightedTfIdf lg text, 0 < e.2.den := by
  intro e he
  have hfind : mfind (calculateWeightedTfIdf lg text) e.1 = some e.2 :=
    mfind_of_mem_nodup _ (tfidf_keys_nodup lg text) e he
  rw [tfidf_mfind] at hfind
  by_cases h : (preprocessText text).count e.1 = 0
  · rw [if_pos h] at hfind
    exact absurd hfind (by simp)
  · rw [if_neg h] at hfind
    have hval := (tfidfScore_facts lg text e.1 h hlgden).1
    have he2 : e.2 = tfidfScoreOf lg (preprocessText text).length
        (e.1, fofN ((preprocessText text).count e.1)) := by
      exact (Option.some.injEq _ _ ▸ hfind).symm
    rw [he2]
    exact hval

theorem wordScore_nonneg (lg : Frac → Frac) (text : String)
    (hlgnn : 0 ≤ (lg idfArg).val) (hlgden : 0 < (lg idfArg).den) (w : String) :
    0 ≤ (jsOrF (mfind (calculateWeightedTfIdf lg text) w) (fofN 0)).val := by
  rw [tfidf_mfind]
  by_cases h : (preprocessText text).count w = 0
  · simp [h, jsOrF, fofN, Frac.val]
  · rw [if_neg h]
    obtain ⟨hden, hval⟩ := tfidfScore_facts lg text w h hlgden
    rw [val_jsOrF_some hden _ (by simp [fofN, Frac.val])]
    rw [hval]
    unfold tfIdfVal
    have h1 : (0 : ℚ) ≤ ((preprocessText text).count w : ℚ) / ((preprocessText text).length : ℚ) := by
      positivity
    have h2 : (0 : ℚ) ≤ vocabWeightVal w := by
      rw [← wt_val_eq]
      exact le_trans zero_le_one (wt_ge_one w)
    exact mul_nonneg (mul_nonneg h1 hlgnn) h2

/-! ### The degenerate all-zero-score (`NoSignal`) situation -/

theorem semFold_num_zero (ts : List (String × Frac)) :
    ∀ (ws : List String) (acc : Frac × Frac), acc.1.num = 0 →
      (∀ w ∈ ws, (jsOrF (mfind ts w) (fofN 0)).num = 0) →
      ((ws.foldl (semStep ts) acc).1).num = 0 := by
  intro ws
  induction ws with
  | nil => intro acc h _; simpa using h
  | cons w ws' ih =>
    intro acc hacc hz
    rw [List.foldl_cons]
    refine ih (semStep ts acc w) ?_ (fun v hv => hz v (by simp [hv]))
    have hw0 : (jsOrF (mfind ts w) (fofN 0)).num = 0 := hz w (by simp)
    simp [semStep, fadd, fmul, hacc, hw0]

theorem semantic_num_zero (lg : Frac → Frac) (text : String) (c : String)
    (hz : ∀ w ∈ catWordsOf c, (preprocessText text).count w = 0) :
    (calculateSemanticSimilarity (calculateWeightedTfIdf lg text) c).num = 0 := by
  have hsz : ∀ w ∈ catWordsOf c,
      (jsOrF (mfind (calculateWeightedTfIdf lg text) w) (fofN 0)).num = 0 := by
    intro w hw
    rw [tfidf_mfind, if_pos (hz w hw)]
    simp [jsOrF, fofN]
  have hm := semFold_num_zero (calculateWeightedTfIdf lg text) (catWordsOf c)
    (fofN 0, fofN 0) (by simp [fofN]) hsz
  unfold calculateSemanticSimilarity
  rw [semanticAccum_eq]
  by_cases hp : fposB ((catWordsOf c).foldl (semStep (calculateWeightedTfIdf lg text))
      (fofN 0, fofN 0)).2
  · simp only [hp, if_true]
    simp [fdiv, hm]
  · simp only [hp, Bool.false_eq_true, if_false]
    simp [fofN]

theorem jsOrJ_num_zero (x : Option JsNum)
    (h : ∀ q, x = some (some q) → q.num = 0) : (jsOrJ x (fofN 0)).num = 0 := by
  match x with
  | none => simp [jsOrJ, fofN]
  | some none => simp [jsOrJ, fofN]
  | some (some q) =>
    have hq : q.num = 0 := h q rfl
    have hz : q.isZero = true := by simp [Frac.isZero, hq]
    simp [jsOrJ, hz, fofN]

theorem contextScoreOf_num_zero (lg : Frac → Frac) (text : String)
    (kw : List (String × List String)) (hz : ctxWeightN text kw = 0) :
    ∀ q, contextScoreOf lg text kw = some q → q.num = 0 := by
  intro q hq
  unfold contextScoreOf at hq
  rw [contextAccum_eq, hz] at hq
  dsimp only at hq
  rcases hdens : jdiv (some (fofN (ctxMatchCount text kw)))
      (some (fofN (preprocessText text).length)) with _ | dfrac
  · rw [hdens] at hq
    simp [jadd, jmul, jdiv] at hq
  · rw [hdens] at hq
    simp only [jadd, jmul] at hq
    simp only [jdiv] at hq
    split at hq
    · exact absurd hq (by simp)
    · have hqe : q = fdiv (fmul (fofN 0) (fadd (fofN 1) dfrac))
          (fadd (fofN 1) (lg (fadd (fofN 1) (fofN (preprocessText text).length)))) := by
        exact (Option.some.injEq _ _ ▸ hq).symm
      rw [hqe]
      simp [fdiv, fmul, fofN]

theorem combined_num_zero (lg : Frac → Frac) (text : String) (c : String)
    (kw : List (String × List String)) (hck : mfind categoryKeywords c = some kw)
    (hsem : (calculateSemanticSimilarity (calculateWeightedTfIdf lg text) c).num = 0)
    (hz : ctxWeightN text kw = 0) :
    (combinedOf lg text c).num = 0 := by
  unfold combinedOf
  have hctx : (jsOrJ (mfind (analyzeContextPatterns lg text) c) (fofN 0)).num = 0 := by
    rw [mfind_analyze, hck]
    exact jsOrJ_num_zero _ (by
      intro q hq
      exact contextScoreOf_num_zero lg text kw hz q (by simpa using hq))
  simp [fadd, fmul, hsem, hctx]

theorem predsOf_eq (lg : Frac → Frac) (text : String) :
    predsOf lg text = categoryNames.map (fun c =>
      { category := c, confidence := confOf (combinedOf lg text c) (maxCombined lg text) }) := by
  unfold predsOf
  rw [combinedScores_eq]
  rw [List.map_map]
  rfl

theorem headD_mem {α : Type} (l : List α) (d : α) (h : l ≠ []) : l.headD d ∈ l := by
  cases l with
  | nil => exact absurd rfl h
  | cons x xs => simp

theorem categoryNames_eq : categoryNames =
    ["Technology", "Business", "Politics", "Sports", "Entertainment", "Health", "Science"] := rfl

/-- Reading off the result record once the sorted prediction list has been
identified as an explicit cons (stated this way so that no proof step ever
needs to evaluate the sort on symbolic input). -/
theorem classifyNews_fields (lg : Frac → Frac) (text : String) (p0 : Prediction)
    (rest : List Prediction)
    (hcons : sortStable staysBefore (predsOf lg text) = p0 :: rest) :
    (classifyNews lg text).confidence = p0.confidence ∧
    (classifyNews lg text).category = p0.category ∧
    (classifyNews lg text).predictions = p0 :: rest := by
  have hds : classifyNews lg text =
      { category := ((p0 :: rest).headD ⟨"", none⟩).category
        confidence := ((p0 :: rest).headD ⟨"", none⟩).confidence
        predictions := p0 :: rest } := by
    rw [classifyNews_eq, hcons]
  rw [hds]
  exact ⟨rfl, rfl, rfl⟩

theorem sortStable_preds_ne_nil (lg : Frac → Frac) (text : String) :
    sortStable staysBefore (predsOf lg text) ≠ [] := by
  intro hc
  have hlen := congrArg List.length hc
  rw [(sortStable_perm staysBefore (predsOf lg text)).length_eq, predsOf_eq,
    List.length_map] at hlen
  rw [categoryNames_eq] at hlen
  simp at hlen

theorem noSignal_confidence (lg : Frac → Frac) (text : String)
    (hall : ∀ c ∈ categoryNames, (combinedOf lg text c).num = 0) :
    (∀ p ∈ (classifyNews lg text).predictions, p.confidence = none) ∧
    (classifyNews lg text).confidence = none := by
  have hnames : categoryNames ≠ [] := by
    rw [categoryNames_eq]
    simp
  have hMmem : maxCombined lg text ∈ (combinedScores lg text).map Prod.snd := by
    apply jsMaxList_mem
    rw [combinedScores_eq]
    simp only [List.map_map, ne_eq, List.map_eq_nil_iff]
    exact hnames
  have hM : (maxCombined lg text).num = 0 := by
    rw [combinedScores_eq] at hMmem
    rw [List.map_map] at hMmem
    obtain ⟨c, hc, he⟩ := List.mem_map.mp hMmem
    rw [← he]
    exact hall c hc
  have hMz : (maxCombined lg text).isZero = true := by simp [Frac.isZero, hM]
  have hpz : ∀ p ∈ predsOf lg text, p.confidence = none := by
    intro p hp
    rw [predsOf_eq] at hp
    obtain ⟨c, _, he⟩ := List.mem_map.mp hp
    have hc2 : p.confidence = confOf (combinedOf lg text c) (maxCombined lg text) := by
      rw [← he]
    rw [hc2]
    exact confOf_of_isZero hMz
  have hpredseq : (classifyNews lg text).predictions = sortStable staysBefore (predsOf lg text) := by
    rw [classifyNews_eq]
  have hsz : ∀ p ∈ (classifyNews lg text).predictions, p.confidence = none := by
    intro p hp
    rw [hpredseq] at hp
    exact hpz p ((sortStable_perm staysBefore (predsOf lg text)).mem_iff.mp hp)
  refine ⟨hsz, ?_⟩
  obtain ⟨p0, rest, hcons⟩ : ∃ p0 rest, sortStable staysBefore (predsOf lg text) = p0 :: rest := by
    rcases hs : sortStable staysBefore (predsOf lg text) with _ | ⟨a, l⟩
    · exact absurd hs (sortStable_preds_ne_nil lg text)
    · exact ⟨a, l, rfl⟩
  obtain ⟨hconf, _, hpreds⟩ := classifyNews_fields lg text p0 rest hcons
  rw [hconf]
  apply hsz
  rw [hpreds]
  simp

/-! ### Semantic similarity: well-formedness, positivity of the total weight -/

theorem semantic_unfold (ts : List (String × Frac)) (c : String) :
    calculateSemanticSimilarity ts c =
      if fposB (semanticAccum ts c).2 then fdiv (semanticAccum ts c).1 (semanticAccum ts c).2
      else fofN 0 := rfl

theorem semantic_den_val (lg : Frac → Frac) (text : String) (c : String)
    (hlgden : 0 < (lg idfArg).den) (hlgnn : 0 ≤ (lg idfArg).val) :
    0 < (calculateSemanticSimilarity (calculateWeightedTfIdf lg text) c).den ∧
    0 ≤ (calculateSemanticSimilarity (calculateWeightedTfIdf lg text) c).val := by
  have hts := tfidf_entries_den_pos lg text hlgden
  obtain ⟨r1, r2, r3, r4, _⟩ := semFold_master _ hts (catWordsOf c) (fofN 0, fofN 0)
    (by simp [fofN]) (by simp [fofN])
  have hnn := r4 (fun w _ => wordScore_nonneg lg text hlgnn hlgden w) (by simp [fofN, Frac.val])
  rw [semantic_unfold, semanticAccum_eq]
  by_cases hp : fposB ((catWordsOf c).foldl
      (semStep (calculateWeightedTfIdf lg text)) (fofN 0, fofN 0)).2
  · rw [if_pos hp]
    have hnum : 0 < ((catWordsOf c).foldl
        (semStep (calculateWeightedTfIdf lg text)) (fofN 0, fofN 0)).2.num := by
      simpa [fposB] using hp
    constructor
    · rw [den_fdiv]
      exact Nat.mul_pos r1 (Int.natAbs_pos.mpr hnum.ne')
    · rw [val_fdiv r1 r2 hnum.ne']
      have hden : 0 < ((catWordsOf c).foldl
          (semStep (calculateWeightedTfIdf lg text)) (fofN 0, fofN 0)).2.val :=
        (fposB_iff r2).mp hp
      exact div_nonneg hnn hden.le
  · rw [if_neg hp]
    exact ⟨by simp [fofN], by simp [fofN, Frac.val]⟩

theorem semanticAux_tw_ind : ∀ (ws : List String) (ts₁ ts₂ : List (String × Frac))
    (a₁ a₂ t : Frac),
    ((ws.foldl (semStep ts₁) (a₁, t)).2) = ((ws.foldl (semStep ts₂) (a₂, t)).2) := by
  intro ws
  induction ws with
  | nil => intro ts₁ ts₂ a₁ a₂ t; rfl
  | cons w ws' ih =>
    intro ts₁ ts₂ a₁ a₂ t
    rw [List.foldl_cons, List.foldl_cons]
    exact ih ts₁ ts₂ _ _ (fadd t (jsOrF (mfind weightedVocabulary w) (fofN 1)))

theorem semanticAccum_tw_independent (c : String) (ts : List (String × Frac)) :
    (semanticAccum ts c).2 = (semanticAccum [] c).2 := by
  rw [semanticAccum_eq, semanticAccum_eq]
  exact semanticAux_tw_ind (catWordsOf c) ts [] (fofN 0) (fofN 0) (fofN 0)

theorem catWords_nonempty :
    (categoryNames.all (fun c => 0 < (catWordsOf c).length)) = true := by
  decide

theorem semanticAccum_tw_pos (c : String) (hc : c ∈ categoryNames)
    (ts : List (String × Frac)) :
    0 < (semanticAccum ts c).2.den ∧ 0 < (semanticAccum ts c).2.val := by
  rw [semanticAccum_tw_independent]
  obtain ⟨_, r2, r3, _, _⟩ := semFold_master [] (by simp) (catWordsOf c) (fofN 0, fofN 0)
    (by simp [fofN]) (by simp [fofN])
  rw [semanticAccum_eq]
  refine ⟨r2, ?_⟩
  have hlen : 0 < (catWordsOf c).length := by
    have := List.all_eq_true.mp catWords_nonempty c hc
    simpa using this
  have h0 : (fofN 0, fofN 0).2.val = 0 := by simp [fofN, Frac.val]
  rw [h0] at r3
  have : (0 : ℚ) < ((catWordsOf c).length : ℚ) := by exact_mod_cast hlen
  linarith

theorem semantic_division_branch (c : String) (hc : c ∈ categoryNames)
    (ts : List (String × Frac)) :
    calculateSemanticSimilarity ts c =
      fdiv (semanticAccum ts c).1 (semanticAccum ts c).2 := by
  obtain ⟨hden, hval⟩ := semanticAccum_tw_pos c hc ts
  rw [semantic_unfold, if_pos ((fposB_iff hden).mpr hval)]

/-! ### The abstract logarithm -/

theorem idfArg_eq : idfArg = ⟨284, 2⟩ := rfl

theorem idfArg_val : idfArg.val = 142 := by
  rw [idfArg_eq]
  norm_num [Frac.val]

theorem logLin_ok : LogOk logLin := by
  constructor
  · intro f hf
    simpa [logLin, fsub, fofN] using hf
  · intro f hf h1
    have hval : (logLin f).val = f.val - 1 := by
      unfold logLin
      rw [val_fsub hf (by simp [fofN]), val_fofN]
      norm_num
    rw [hval]
    linarith

theorem logOk_idf_nonneg {lg : Frac → Frac} (h : LogOk lg) : 0 ≤ (lg idfArg).val :=
  h.2 idfArg (by rw [idfArg_eq]; norm_num) (by rw [idfArg_val]; norm_num)

theorem logOk_idf_den {lg : Frac → Frac} (h : LogOk lg) : 0 < (lg idfArg).den :=
  h.1 idfArg (by rw [idfArg_eq]; norm_num)

/-- Facts about the context denominator `1 + lg (1 + n)`. -/
theorem dd_facts {lg : Frac → Frac} (h : LogOk lg) (n : ℕ) :
    0 < (fadd (fofN 1) (lg (fadd (fofN 1) (fofN n)))).den ∧
    0 < (fadd (fofN 1) (lg (fadd (fofN 1) (fofN n)))).val ∧
    (fadd (fofN 1) (lg (fadd (fofN 1) (fofN n)))).num ≠ 0 ∧
    (fadd (fofN 1) (lg (fadd (fofN 1) (fofN n)))).val
      = 1 + (lg (fadd (fofN 1) (fofN n))).val := by
  have h1den : (0:ℕ) < (fofN 1).den := by simp [fofN]
  have harg_den : 0 < (fadd (fofN 1) (fofN n)).den := by simp [fadd, fofN]
  have harg_val : 1 ≤ (fadd (fofN 1) (fofN n)).val := by
    rw [val_fadd h1den (by simp [fofN]), val_fofN, val_fofN]
    have hn : (0:ℚ) ≤ (n:ℚ) := by positivity
    push_cast
    linarith
  have hlden := h.1 _ harg_den
  have hlnn := h.2 _ harg_den harg_val
  have hden : 0 < (fadd (fofN 1) (lg (fadd (fofN 1) (fofN n)))).den := by
    rw [den_fadd]
    have : (fofN 1).den = 1 := rfl
    rw [this, one_mul]
    exact hlden
  have hval : (fadd (fofN 1) (lg (fadd (fofN 1) (fofN n)))).val
      = 1 + (lg (fadd (fofN 1) (fofN n))).val := by
    rw [val_fadd h1den hlden, val_fofN]
    norm_num
  have hpos : 0 < (fadd (fofN 1) (lg (fadd (fofN 1) (fofN n)))).val := by
    rw [hval]
    linarith
  refine ⟨hden, hpos, ?_, hval⟩
  intro hc
  have hz : (fadd (fofN 1) (lg (fadd (fofN 1) (fofN n)))).val = 0 := by
    rw [Frac.val, hc]
    simp
  rw [hz] at hpos
  exact lt_irrefl 0 hpos

/-! ### The context score: value formula and well-formedness -/

theorem contextScoreOf_unfold (lg : Frac → Frac) (text : String)
    (kw : List (String × List String)) :
    contextScoreOf lg text kw =
      jdiv (jmul (some (fofN (ctxWeightN text kw)))
          (jadd (some (fofN 1)) (jdiv (some (fofN (ctxMatchCount text kw)))
            (some (fofN (preprocessText text).length)))))
        (some (fadd (fofN 1) (lg (fadd (fofN 1) (fofN (preprocessText text).length))))) := by
  unfold contextScoreOf
  rw [contextAccum_eq]

theorem ctxOr0_facts (lg : Frac → Frac) (h : LogOk lg) (text : String) (c : String)
    (kw : List (String × List String)) (hck : mfind categoryKeywords c = some kw) :
    0 < (jsOrJ (mfind (analyzeContextPatterns lg text) c) (fofN 0)).den ∧
    0 ≤ (jsOrJ (mfind (analyzeContextPatterns lg text) c) (fofN 0)).val ∧
    ((preprocessText text).length ≠ 0 →
      (jsOrJ (mfind (analyzeContextPatterns lg text) c) (fofN 0)).val =
        ((ctxWeightN text kw : ℚ) * (1 + (ctxMatchCount text kw : ℚ) /
          ((preprocessText text).length : ℚ))) /
        (1 + (lg (fadd (fofN 1) (fofN (preprocessText text).length))).val)) := by
  rw [mfind_analyze, hck]
  simp only [Option.map_some']
  by_cases hN : (preprocessText text).length = 0
  · have hst : contextScoreOf lg text kw = none := by
      rw [contextScoreOf_unfold, hN]
      simp [jdiv, fofN, Frac.isZero, jadd, jmul]
    rw [hst]
    exact ⟨by simp [jsOrJ, fofN], by simp [jsOrJ, fofN, Frac.val], fun hc => absurd hN hc⟩
  · obtain ⟨hDden, hDpos, hDnum, hDval⟩ := dd_facts h (preprocessText text).length
    have hNnum : ((preprocessText text).length : ℤ) ≠ 0 := by exact_mod_cast hN
    have hNz : (fofN (preprocessText text).length).isZero = false := by
      simp [fofN, Frac.isZero]
      intro hc
      exact hN (by rw [hc]; rfl)
    have hDz : (fadd (fofN 1) (lg (fadd (fofN 1)
        (fofN (preprocessText text).length)))).isZero = false := by
      simp [Frac.isZero]
      exact hDnum
    have hdenden : 0 < (fdiv (fofN (ctxMatchCount text kw))
        (fofN (preprocessText text).length)).den := by
      rw [den_fdiv]
      simpa [fofN] using Nat.pos_of_ne_zero hN
    have hinden : 0 < (fadd (fofN 1) (fdiv (fofN (ctxMatchCount text kw))
        (fofN (preprocessText text).length))).den := by
      rw [den_fadd]
      have : (fofN 1).den = 1 := rfl
      rw [this, one_mul]
      exact hdenden
    have hmulden : 0 < (fmul (fofN (ctxWeightN text kw))
        (fadd (fofN 1) (fdiv (fofN (ctxMatchCount text kw))
          (fofN (preprocessText text).length)))).den := by
      rw [den_fmul]
      have : (fofN (ctxWeightN text kw)).den = 1 := rfl
      rw [this, one_mul]
      exact hinden
    have hst : contextScoreOf lg text kw = some (fdiv
        (fmul (fofN (ctxWeightN text kw))
          (fadd (fofN 1) (fdiv (fofN (ctxMatchCount text kw))
            (fofN (preprocessText text).length))))
        (fadd (fofN 1) (lg (fadd (fofN 1) (fofN (preprocessText text).length))))) := by
      rw [contextScoreOf_unfold]
      simp only [jdiv, hNz, Bool.false_eq_true, if_false, jadd, jmul, hDz]
    rw [hst]
    have hqden : 0 < (fdiv
        (fmul (fofN (ctxWeightN text kw))
          (fadd (fofN 1) (fdiv (fofN (ctxMatchCount text kw))
            (fofN (preprocessText text).length))))
        (fadd (fofN 1) (lg (fadd (fofN 1) (fofN (preprocessText text).length))))).den := by
      rw [den_fdiv]
      exact Nat.mul_pos hmulden (Int.natAbs_pos.mpr hDnum)
    have hqval : (fdiv
        (fmul (fofN (ctxWeightN text kw))
          (fadd (fofN 1) (fdiv (fofN (ctxMatchCount text kw))
            (fofN (preprocessText text).length))))
        (fadd (fofN 1) (lg (fadd (fofN 1) (fofN (preprocessText text).length))))).val =
        ((ctxWeightN text kw : ℚ) * (1 + (ctxMatchCount text kw : ℚ) /
          ((preprocessText text).length : ℚ))) /
        (1 + (lg (fadd (fofN 1) (fofN (preprocessText text).length))).val) := by
      rw [val_fdiv hmulden hDden hDnum, val_fmul,
        val_fadd (by simp [fofN] : (0:ℕ) < (fofN 1).den) hdenden,
        val_fdiv (by simp [fofN]) (by simp [fofN]) (by simpa [fofN] using hNnum),
        hDval]
      simp only [val_fofN]
      push_cast
      ring
    have hformula_nonneg : 0 ≤ ((ctxWeightN text kw : ℚ) * (1 + (ctxMatchCount text kw : ℚ) /
        ((preprocessText text).length : ℚ))) /
        (1 + (lg (fadd (fofN 1) (fofN (preprocessText text).length))).val) := by
      rw [← hDval]
      apply div_nonneg _ hDpos.le
      have hW : (0:ℚ) ≤ (ctxWeightN text kw : ℚ) := by positivity
      have hm : (0:ℚ) ≤ (ctxMatchCount text kw : ℚ) / ((preprocessText text).length : ℚ) := by
        positivity
      nlinarith
    by_cases hqz : (fdiv
        (fmul (fofN (ctxWeightN text kw))
          (fadd (fofN 1) (fdiv (fofN (ctxMatchCount text kw))
            (fofN (preprocessText text).length))))
        (fadd (fofN 1) (lg (fadd (fofN 1) (fofN (preprocessText text).length))))).isZero
    · have hv0 := (isZero_iff hqden).mp hqz
      rw [hqval] at hv0
      simp only [jsOrJ, hqz, if_true]
      refine ⟨by simp [fofN], by simp [fofN, Frac.val], fun _ => ?_⟩
      rw [hv0]
      simp [fofN, Frac.val]
    · simp only [jsOrJ, hqz, Bool.false_eq_true, if_false]
      exact ⟨hqden, hqval ▸ hformula_nonneg, fun _ => hqval⟩

/-! ### Combined scores, the maximum, and confidences -/

theorem w06_val : w06.val = 3/5 := by norm_num [w06, Frac.val]

theorem w04_val : w04.val = 2/5 := by norm_num [w04, Frac.val]

theorem fmin_mem (a b : Frac) : fmin a b = a ∨ fmin a b = b := by
  unfold fmin
  by_cases h : fltB a b
  · exact Or.inl (if_pos h)
  · exact Or.inr (if_neg h)

theorem mfind_keywords (c : String) (hc : c ∈ categoryNames) :
    ∃ kw, mfind categoryKeywords c = some kw := by
  rw [categoryNames_eq] at hc
  simp only [List.mem_cons, List.not_mem_nil, or_false] at hc
  rcases hc with h1 | h1 | h1 | h1 | h1 | h1 | h1 <;> subst h1 <;> exact ⟨_, rfl⟩

theorem ctx_facts (lg : Frac → Frac) (h : LogOk lg) (text c : String)
    (hc : c ∈ categoryNames) :
    0 < (jsOrJ (mfind (analyzeContextPatterns lg text) c) (fofN 0)).den ∧
    0 ≤ (jsOrJ (mfind (analyzeContextPatterns lg text) c) (fofN 0)).val := by
  obtain ⟨kw, hkw⟩ := mfind_keywords c hc
  obtain ⟨a, b, _⟩ := ctxOr0_facts lg h text c kw hkw
  exact ⟨a, b⟩

theorem combined_facts (lg : Frac → Frac) (h : LogOk lg) (text c : String)
    (hc : c ∈ categoryNames) :
    0 < (combinedOf lg text c).den ∧ 0 ≤ (combinedOf lg text c).val ∧
    (combinedOf lg text c).val =
      (calculateSemanticSimilarity (calculateWeightedTfIdf lg text) c).val * w06.val +
      (jsOrJ (mfind (analyzeContextPatterns lg text) c) (fofN 0)).val * w04.val := by
  obtain ⟨hsd, hsn⟩ := semantic_den_val lg text c (logOk_idf_den h) (logOk_idf_nonneg h)
  obtain ⟨hcd, hcn⟩ := ctx_facts lg h text c hc
  have h6 : (0:ℕ) < w06.den := by norm_num [w06]
  have h4 : (0:ℕ) < w04.den := by norm_num [w04]
  have hd1 : 0 < (fmul (calculateSemanticSimilarity (calculateWeightedTfIdf lg text) c)
      w06).den := by
    rw [den_fmul]
    exact Nat.mul_pos hsd h6
  have hd2 : 0 < (fmul (jsOrJ (mfind (analyzeContextPatterns lg text) c) (fofN 0))
      w04).den := by
    rw [den_fmul]
    exact Nat.mul_pos hcd h4
  have hdall : 0 < (combinedOf lg text c).den := by
    unfold combinedOf
    rw [den_fadd]
    exact Nat.mul_pos hd1 hd2
  have hval : (combinedOf lg text c).val =
      (calculateSemanticSimilarity (calculateWeightedTfIdf lg text) c).val * w06.val +
      (jsOrJ (mfind (analyzeContextPatterns lg text) c) (fofN 0)).val * w04.val := by
    unfold combinedOf
    rw [val_fadd hd1 hd2, val_fmul, val_fmul]
  refine ⟨hdall, ?_, hval⟩
  rw [hval]
  have h6v : (0:ℚ) ≤ w06.val := by rw [w06_val]; norm_num
  have h4v : (0:ℚ) ≤ w04.val := by rw [w04_val]; norm_num
  have := mul_nonneg hsn h6v
  have := mul_nonneg hcn h4v
  linarith

theorem maxCombined_facts (lg : Frac → Frac) (h : LogOk lg) (text : String) :
    0 < (maxCombined lg text).den ∧ 0 ≤ (maxCombined lg text).val ∧
    (∀ c ∈ categoryNames, (combinedOf lg text c).val ≤ (maxCombined lg text).val) ∧
    (∃ c ∈ categoryNames, maxCombined lg text = combinedOf lg text c) := by
  have hmap : (combinedScores lg text).map Prod.snd
      = categoryNames.map (combinedOf lg text) := by
    rw [combinedScores_eq, List.map_map]
    rfl
  have hM : maxCombined lg text = jsMaxList (categoryNames.map (combinedOf lg text)) := by
    unfold maxCombined
    rw [hmap]
  have hne : categoryNames.map (combinedOf lg text) ≠ [] := by
    rw [categoryNames_eq]
    simp
  have hdens : ∀ x ∈ categoryNames.map (combinedOf lg text), 0 < x.den := by
    intro x hx
    obtain ⟨c, hc, rfl⟩ := List.mem_map.mp hx
    exact (combined_facts lg h text c hc).1
  have hmem := jsMaxList_mem _ hne
  obtain ⟨c0, hc0, hc0eq⟩ := List.mem_map.mp hmem
  refine ⟨?_, ?_, ?_, ⟨c0, hc0, by rw [hM, ← hc0eq]⟩⟩
  · rw [hM, ← hc0eq]
    exact (combined_facts lg h text c0 hc0).1
  · rw [hM, ← hc0eq]
    exact (combined_facts lg h text c0 hc0).2.1
  · intro c hc
    rw [hM]
    exact jsMaxList_ge _ hdens _ (List.mem_map_of_mem (combinedOf lg text) hc)

theorem confOf_val {s M : Frac} (hsd : 0 < s.den) (hMd : 0 < M.den)
    (hMz : M.isZero = false) (hs : 0 ≤ s.val) (hM : 0 < M.val) :
    ∃ q, confOf s M = some q ∧ 0 < q.den ∧
      q.val = min (s.val / M.val * 100) 100 ∧ 0 ≤ q.val ∧ q.val ≤ 100 := by
  have hMnum : M.num ≠ 0 := by
    intro hc
    simp [Frac.isZero, hc] at hMz
  have hdd : 0 < (fdiv s M).den := by
    rw [den_fdiv]
    exact Nat.mul_pos hsd (Int.natAbs_pos.mpr hMnum)
  have hmd : 0 < (fmul (fdiv s M) (fofN 100)).den := by
    rw [den_fmul]
    simpa [fofN] using hdd
  have h100 : (0:ℕ) < (fofN 100).den := by simp [fofN]
  have hqval : (fmin (fmul (fdiv s M) (fofN 100)) (fofN 100)).val
      = min (s.val / M.val * 100) 100 := by
    rw [val_fmin hmd h100, val_fmul, val_fdiv hsd hMd hMnum, val_fofN]
    norm_num
  refine ⟨_, confOf_of_not_isZero hMz, ?_, hqval, ?_, ?_⟩
  · rcases fmin_mem (fmul (fdiv s M) (fofN 100)) (fofN 100) with he | he <;> rw [he]
    · exact hmd
    · exact h100
  · rw [hqval]
    have hnn : (0:ℚ) ≤ s.val / M.val * 100 := by positivity
    exact le_min hnn (by norm_num)
  · rw [hqval]
    exact min_le_right _ _

theorem maxCombined_val_pos (lg : Frac → Frac) (h : LogOk lg) (text : String)
    (hMz : (maxCombined lg text).isZero = false) : 0 < (maxCombined lg text).val := by
  obtain ⟨hMd, hMn, _, _⟩ := maxCombined_facts lg h text
  have hne : (maxCombined lg text).val ≠ 0 := by
    intro hc
    rw [(isZero_iff hMd).mpr hc] at hMz
    exact absurd hMz (by simp)
  exact lt_of_le_of_ne hMn (Ne.symm hne)

/-- Field projections of an explicit prediction record, as rewrite rules (so
that no proof step ever asks for a definitional evaluation of a confidence). -/
theorem conf_mk (c : String) (x : JsNum) : (Prediction.mk c x).confidence = x := rfl

theorem cat_mk (c : String) (x : JsNum) : (Prediction.mk c x).category = c := rfl

theorem preds_conf_some (lg : Frac → Frac) (h : LogOk lg) (text : String)
    (hMz : (maxCombined lg text).isZero = false) :
    ∀ p ∈ predsOf lg text, ∃ q, p.confidence = some q ∧ 0 < q.den ∧
      0 ≤ q.val ∧ q.val ≤ 100 := by
  have hMd := (maxCombined_facts lg h text).1
  have hMval := maxCombined_val_pos lg h text hMz
  intro p hp
  rw [predsOf_eq] at hp
  obtain ⟨c, hc, hpe⟩ := List.mem_map.mp hp
  subst hpe
  rw [conf_mk]
  obtain ⟨hcd, hcn, _⟩ := combined_facts lg h text c hc
  obtain ⟨q, hq, hqd, _, hq0, hq100⟩ := confOf_val hcd hMd hMz hcn hMval
  exact ⟨q, hq, hqd, hq0, hq100⟩

theorem preds_conf_none (lg : Frac → Frac) (text : String)
    (hMz : (maxCombined lg text).isZero = true) :
    ∀ p ∈ predsOf lg text, p.confidence = none := by
  intro p hp
  rw [predsOf_eq] at hp
  obtain ⟨c, hc, hpe⟩ := List.mem_map.mp hp
  subst hpe
  rw [conf_mk]
  exact confOf_of_isZero hMz

/-! ### The comparator at the value level -/

theorem staysBefore_iff {a b : Prediction} {x y : Frac}
    (hax : a.confidence = some x) (hby : b.confidence = some y)
    (hx : 0 < x.den) (hy : 0 < y.den) :
    staysBefore a b = false ↔ x.val < y.val := by
  unfold staysBefore
  rw [hax, hby]
  simp only [jsub, jposB]
  have hiff : ((!(fposB (fsub y x))) = false) ↔ fposB (fsub y x) = true := by
    cases fposB (fsub y x) <;> simp
  rw [hiff, fposB_iff (by rw [den_fsub]; exact Nat.mul_pos hy hx), val_fsub hy hx]
  constructor <;> intro h' <;> linarith

theorem staysBefore_nan {a b : Prediction}
    (h : b.confidence = none ∨ a.confidence = none) :
    staysBefore a b = true := by
  unfold staysBefore
  rcases h with h | h <;> rw [h]
  · rfl
  · cases hb : b.confidence <;> rfl

theorem pairwise_stable_sortStable_mem {α : Type} (stays : α → α → Bool) (R : α → α → Prop) :
    ∀ l : List α, (∀ a ∈ l, ∀ b ∈ l, stays a b = false → R b a) →
      l.Pairwise R → (sortStable stays l).Pairwise R := by
  intro l
  induction l with
  | nil => intro _ _; simp [sortStable]
  | cons x xs ih =>
    intro hcompat hp
    rw [List.pairwise_cons] at hp
    obtain ⟨hx, hxs⟩ := hp
    have hs : (sortStable stays xs).Pairwise R :=
      ih (fun a ha b hb => hcompat a (by simp [ha]) b (by simp [hb])) hxs
    have hsubmem : ∀ a ∈ sortStable stays xs, a ∈ xs := fun a ha =>
      (sortStable_perm stays xs).mem_iff.mp ha
    obtain ⟨l₁, l₂, h1, h2, h3, _⟩ := insertStable_split stays x (sortStable stays xs)
    show (insertStable stays x (sortStable stays xs)).Pairwise R
    rw [h1]
    rw [h2] at hs
    rw [List.pairwise_append] at hs
    obtain ⟨hp1, hp2, hp12⟩ := hs
    rw [List.pairwise_append]
    refine ⟨hp1, ?_, ?_⟩
    · rw [List.pairwise_cons]
      refine ⟨?_, hp2⟩
      intro z hz
      exact hx z (hsubmem z (h2 ▸ List.mem_append_right _ hz))
    · intro a ha b hb
      rcases List.mem_cons.mp hb with hb' | hb'
      · subst hb'
        have hamem : a ∈ xs := hsubmem a (h2 ▸ List.mem_append_left _ ha)
        exact hcompat b (by simp) a (by simp [hamem]) (h3 a ha)
      · exact hp12 a ha b hb'

theorem classifyNews_predictions (lg : Frac → Frac) (text : String) :
    (classifyNews lg text).predictions = sortStable staysBefore (predsOf lg text) := by
  rw [classifyNews_eq]

theorem predsOf_pairwise_rank (lg : Frac → Frac) (text : String) :
    (predsOf lg text).Pairwise (fun a b => catRank a.category < catRank b.category) := by
  rw [predsOf_eq]
  rw [List.pairwise_map]
  have hnames : List.Pairwise (fun a b : String => catRank a < catRank b) categoryNames := by
    decide
  exact hnames

theorem jsLtVal_some {x y : Frac} : jsLtVal (some x) (some y) ↔ x.val < y.val := by
  constructor
  · rintro ⟨x', y', hx, hy, hlt⟩
    obtain rfl := Option.some.inj hx
    obtain rfl := Option.some.inj hy
    exact hlt
  · intro hlt
    exact ⟨x, y, rfl, rfl, hlt⟩

theorem jsEqVal_some {x y : Frac} : jsEqVal (some x) (some y) ↔ x.val = y.val := Iff.rfl

theorem val_of_num_zero {a : Frac} (h : a.num = 0) : a.val = 0 := by
  simp [Frac.val, h]

/-- The sorted prediction list is value-descending, and value-level ties keep
the declaration order of the categories. -/
theorem preds_sorted_pairwise (lg : Frac → Frac) (h : LogOk lg) (text : String) :
    (sortStable staysBefore (predsOf lg text)).Pairwise (fun a b =>
      ¬ jsLtVal a.confidence b.confidence ∧
      (jsEqVal a.confidence b.confidence → catRank a.category < catRank b.category)) := by
  cases hMz : (maxCombined lg text).isZero with
  | true =>
    have hnone := preds_conf_none lg text hMz
    apply pairwise_stable_sortStable_mem staysBefore _ (predsOf lg text)
    · intro a ha b hb hf
      have := staysBefore_nan (a := a) (b := b) (Or.inl (hnone b hb))
      rw [this] at hf
      exact absurd hf (by simp)
    · refine List.Pairwise.imp_of_mem ?_ (predsOf_pairwise_rank lg text)
      intro a b ha hb hr
      refine ⟨?_, fun _ => hr⟩
      rintro ⟨x, y, hax, _, _⟩
      rw [hnone a ha] at hax
      exact absurd hax (by simp)
  | false =>
    have hsome := preds_conf_some lg h text hMz
    have hmemS : ∀ a ∈ sortStable staysBefore (predsOf lg text), a ∈ predsOf lg text :=
      fun a ha => (sortStable_perm staysBefore (predsOf lg text)).mem_iff.mp ha
    have hstays_iff : ∀ a ∈ predsOf lg text, ∀ b ∈ predsOf lg text, ∀ x y,
        a.confidence = some x → b.confidence = some y →
        (staysBefore a b = true ↔ ¬ x.val < y.val) := by
      intro a ha b hb x y hax hby
      obtain ⟨x', hax', hxd, _, _⟩ := hsome a ha
      obtain ⟨y', hby', hyd, _, _⟩ := hsome b hb
      obtain rfl : x = x' := by rw [hax] at hax'; exact Option.some.inj hax'
      obtain rfl : y = y' := by rw [hby] at hby'; exact Option.some.inj hby'
      constructor
      · intro ht hlt
        rw [(staysBefore_iff hax hby hxd hyd).mpr hlt] at ht
        exact absurd ht (by simp)
      · intro hn
        cases hsb : staysBefore a b
        · exact absurd ((staysBefore_iff hax hby hxd hyd).mp hsb) hn
        · rfl
    have htot : ∀ a ∈ predsOf lg text, ∀ b ∈ predsOf lg text,
        staysBefore a b = true ∨ staysBefore b a = true := by
      intro a ha b hb
      obtain ⟨x, hax, hxd, _, _⟩ := hsome a ha
      obtain ⟨y, hby, hyd, _, _⟩ := hsome b hb
      by_cases hlt : x.val < y.val
      · exact Or.inr ((hstays_iff b hb a ha y x hby hax).mpr (by linarith))
      · exact Or.inl ((hstays_iff a ha b hb x y hax hby).mpr hlt)
    have htrans : ∀ a ∈ predsOf lg text, ∀ b ∈ predsOf lg text, ∀ c ∈ predsOf lg text,
        staysBefore a b = true → staysBefore b c = true → staysBefore a c = true := by
      intro a ha b hb c hc hab hbc
      obtain ⟨x, hax, _, _, _⟩ := hsome a ha
      obtain ⟨y, hby, _, _, _⟩ := hsome b hb
      obtain ⟨z, hcz, _, _, _⟩ := hsome c hc
      have h1 := (hstays_iff a ha b hb x y hax hby).mp hab
      have h2 := (hstays_iff b hb c hc y z hby hcz).mp hbc
      refine (hstays_iff a ha c hc x z hax hcz).mpr ?_
      intro hlt
      rcases lt_or_le x.val y.val with hxy | hxy
      · exact h1 hxy
      · exact h2 (by linarith)
    have hA := pairwise_sortStable staysBefore (predsOf lg text) htot htrans
    have hA' : (sortStable staysBefore (predsOf lg text)).Pairwise
        (fun a b => ¬ jsLtVal a.confidence b.confidence) := by
      refine List.Pairwise.imp_of_mem ?_ hA
      intro a b ha hb hst hlt
      obtain ⟨x', y', hax', hby', hvlt⟩ := hlt
      have ham := hmemS a ha
      have hbm := hmemS b hb
      have := (hstays_iff a ham b hbm x' y' hax' hby').mp hst
      exact this hvlt
    have hB : (sortStable staysBefore (predsOf lg text)).Pairwise
        (fun a b => jsEqVal a.confidence b.confidence →
          catRank a.category < catRank b.category) := by
      apply pairwise_stable_sortStable_mem staysBefore _ (predsOf lg text)
      · intro a ha b hb hf
        obtain ⟨x, hax, hxd, _, _⟩ := hsome a ha
        obtain ⟨y, hby, hyd, _, _⟩ := hsome b hb
        have hlt := (staysBefore_iff hax hby hxd hyd).mp hf
        intro heq
        rw [hby, hax] at heq
        rw [jsEqVal_some] at heq
        exact absurd hlt (by rw [heq]; exact lt_irrefl _)
      · exact List.Pairwise.imp_of_mem (fun _ _ hr => fun _ => hr) (predsOf_pairwise_rank lg text)
    exact hA'.and hB

theorem classifyNews_pred_length (lg : Frac → Frac) (text : String) :
    (classifyNews lg text).predictions.length = 7 := by
  rw [classifyNews_predictions, (sortStable_perm staysBefore (predsOf lg text)).length_eq,
    predsOf_eq, List.length_map, categoryNames_eq]
  rfl

theorem preds_categories (lg : Frac → Frac) (text : String) :
    (predsOf lg text).map Prediction.category = categoryNames := by
  rw [predsOf_eq, List.map_map]
  have hcong : ∀ c ∈ categoryNames,
      (Prediction.category ∘ fun c =>
        ({ category := c,
           confidence := confOf (combinedOf lg text c) (maxCombined lg text) } : Prediction)) c
        = id c :=
    fun c _ => cat_mk c _
  rw [List.map_congr_left hcong, List.map_id]

theorem maxCombined_isZero_false (lg : Frac → Frac) (h : LogOk lg) (text : String)
    (hv : 0 < (maxCombined lg text).val) : (maxCombined lg text).isZero = false := by
  have hMd := (maxCombined_facts lg h text).1
  cases hz : (maxCombined lg text).isZero
  · rfl
  · have h0 := (isZero_iff hMd).mp hz
    rw [h0] at hv
    exact absurd hv (lt_irrefl 0)

/-- The stored context score of one category, when the text has at least one
token: a plain number whose value is the §4.6 formula. -/
theorem contextScoreOf_some (lg : Frac → Frac) (h : LogOk lg) (text : String)
    (kw : List (String × List String)) (hN : (preprocessText text).length ≠ 0) :
    ∃ q, contextScoreOf lg text kw = some q ∧ 0 < q.den ∧
      q.val = ((ctxWeightN text kw : ℚ) * (1 + (ctxMatchCount text kw : ℚ) /
          ((preprocessText text).length : ℚ))) /
        (1 + (lg (fadd (fofN 1) (fofN (preprocessText text).length))).val) := by
  obtain ⟨hDden, hDpos, hDnum, hDval⟩ := dd_facts h (preprocessText text).length
  have hNnum : ((preprocessText text).length : ℤ) ≠ 0 := by exact_mod_cast hN
  have hNz : (fofN (preprocessText text).length).isZero = false := by
    simp [fofN, Frac.isZero]
    intro hc
    exact hN (by rw [hc]; rfl)
  have hDz : (fadd (fofN 1) (lg (fadd (fofN 1)
      (fofN (preprocessText text).length)))).isZero = false := by
    simp [Frac.isZero]
    exact hDnum
  have hdenden : 0 < (fdiv (fofN (ctxMatchCount text kw))
      (fofN (preprocessText text).length)).den := by
    rw [den_fdiv]
    simpa [fofN] using Nat.pos_of_ne_zero hN
  have hinden : 0 < (fadd (fofN 1) (fdiv (fofN (ctxMatchCount text kw))
      (fofN (preprocessText text).length))).den := by
    rw [den_fadd]
    have h1 : (fofN 1).den = 1 := rfl
    rw [h1, one_mul]
    exact hdenden
  have hmulden : 0 < (fmul (fofN (ctxWeightN text kw))
      (fadd (fofN 1) (fdiv (fofN (ctxMatchCount text kw))
        (fofN (preprocessText text).length)))).den := by
    rw [den_fmul]
    have h1 : (fofN (ctxWeightN text kw)).den = 1 := rfl
    rw [h1, one_mul]
    exact hinden
  have hst : contextScoreOf lg text kw = some (fdiv
      (fmul (fofN (ctxWeightN text kw))
        (fadd (fofN 1) (fdiv (fofN (ctxMatchCount text kw))
          (fofN (preprocessText text).length))))
      (fadd (fofN 1) (lg (fadd (fofN 1) (fofN (preprocessText text).length))))) := by
    rw [contextScoreOf_unfold]
    simp only [jdiv, hNz, Bool.false_eq_true, if_false, jadd, jmul, hDz]
  have hqden : 0 < (fdiv
      (fmul (fofN (ctxWeightN text kw))
        (fadd (fofN 1) (fdiv (fofN (ctxMatchCount text kw))
          (fofN (preprocessText text).length))))
      (fadd (fofN 1) (lg (fadd (fofN 1) (fofN (preprocessText text).length))))).den := by
    rw [den_fdiv]
    exact Nat.mul_pos hmulden (Int.natAbs_pos.mpr hDnum)
  have hqval : (fdiv
      (fmul (fofN (ctxWeightN text kw))
        (fadd (fofN 1) (fdiv (fofN (ctxMatchCount text kw))
          (fofN (preprocessText text).length))))
      (fadd (fofN 1) (lg (fadd (fofN 1) (fofN (preprocessText text).length))))).val =
      ((ctxWeightN text kw : ℚ) * (1 + (ctxMatchCount text kw : ℚ) /
        ((preprocessText text).length : ℚ))) /
      (1 + (lg (fadd (fofN 1) (fofN (preprocessText text).length))).val) := by
    rw [val_fdiv hmulden hDden hDnum, val_fmul,
      val_fadd (by simp [fofN] : (0:ℕ) < (fofN 1).den) hdenden,
      val_fdiv (by simp [fofN]) (by simp [fofN]) (by simpa [fofN] using hNnum),
      hDval]
    simp only [val_fofN]
    push_cast
    ring
  exact ⟨_, hst, hqden, hqval⟩

theorem ctx_val_pos (lg : Frac → Frac) (h : LogOk lg) (text c : String)
    (kw : List (String × List String)) (hck : mfind categoryKeywords c = some kw)
    (hN : (preprocessText text).length ≠ 0) (hW : ctxWeightN text kw ≠ 0) :
    0 < (jsOrJ (mfind (analyzeContextPatterns lg text) c) (fofN 0)).val := by
  obtain ⟨_, _, hform⟩ := ctxOr0_facts lg h text c kw hck
  rw [hform hN]
  obtain ⟨_, hDpos, _, hDval⟩ := dd_facts h (preprocessText text).length
  rw [hDval] at hDpos
  apply div_pos _ hDpos
  have hW1 : (1:ℚ) ≤ (ctxWeightN text kw : ℚ) := by
    exact_mod_cast Nat.one_le_iff_ne_zero.mpr hW
  have hm : (0:ℚ) ≤ (ctxMatchCount text kw : ℚ) / ((preprocessText text).length : ℚ) := by
    positivity
  nlinarith

theorem combined_val_pos_of_ctx (lg : Frac → Frac) (h : LogOk lg) (text c : String)
    (hc : c ∈ categoryNames)
    (hctx : 0 < (jsOrJ (mfind (analyzeContextPatterns lg text) c) (fofN 0)).val) :
    0 < (combinedOf lg text c).val := by
  obtain ⟨_, _, hval⟩ := combined_facts lg h text c hc
  obtain ⟨_, hsn⟩ := semantic_den_val lg text c (logOk_idf_den h) (logOk_idf_nonneg h)
  rw [hval, w06_val, w04_val]
  nlinarith

theorem maxCombined_pos_of (lg : Frac → Frac) (h : LogOk lg) (text c : String)
    (hc : c ∈ categoryNames) (hpos : 0 < (combinedOf lg text c).val) :
    0 < (maxCombined lg text).val :=
  lt_of_lt_of_le hpos ((maxCombined_facts lg h text).2.2.1 c hc)

theorem exists_other (cstar : String) : ∃ c ∈ categoryNames, c ≠ cstar := by
  by_cases h1 : cstar = "Technology"
  · refine ⟨"Business", by rw [categoryNames_eq]; simp, ?_⟩
    rw [h1]
    decide
  · exact ⟨"Technology", by rw [categoryNames_eq]; simp, fun hc => h1 hc.symm⟩

/-- If one category's combined score strictly dominates all the others, it is
the top category and its confidence is exactly 100. -/
theorem top_of_dominant (lg : Frac → Frac) (h : LogOk lg) (text : String) (cstar : String)
    (hcs : cstar ∈ categoryNames)
    (hdom : ∀ c ∈ categoryNames, c ≠ cstar →
      (combinedOf lg text c).val < (combinedOf lg text cstar).val) :
    (classifyNews lg text).category = cstar ∧
    ∃ q, (classifyNews lg text).confidence = some q ∧ q.val = 100 := by
  obtain ⟨hMd, hMn, hge, c0, hc0, hMeq⟩ := maxCombined_facts lg h text
  have hMstar : (maxCombined lg text).val = (combinedOf lg text cstar).val := by
    by_cases he : c0 = cstar
    · rw [hMeq, he]
    · have hlt := hdom c0 hc0 he
      have hge' := hge cstar hcs
      rw [hMeq] at hge'
      exact absurd hge' (not_le.mpr hlt)
  obtain ⟨c1, hc1, hc1ne⟩ := exists_other cstar
  have hMpos : 0 < (maxCombined lg text).val := by
    have h0 := (combined_facts lg h text c1 hc1).2.1
    have hlt := hdom c1 hc1 hc1ne
    rw [hMstar]
    linarith
  have hMz : (maxCombined lg text).isZero = false := maxCombined_isZero_false lg h text hMpos
  have hsome := preds_conf_some lg h text hMz
  obtain ⟨p0, rest, hcons⟩ : ∃ p0 rest,
      sortStable staysBefore (predsOf lg text) = p0 :: rest := by
    rcases hs : sortStable staysBefore (predsOf lg text) with _ | ⟨a, l⟩
    · exact absurd hs (sortStable_preds_ne_nil lg text)
    · exact ⟨a, l, rfl⟩
  obtain ⟨hconf, hcat, _⟩ := classifyNews_fields lg text p0 rest hcons
  have hp0mem : p0 ∈ predsOf lg text := by
    have hmem : p0 ∈ sortStable staysBefore (predsOf lg text) := by
      rw [hcons]
      simp
    exact (sortStable_perm staysBefore (predsOf lg text)).mem_iff.mp hmem
  have hp0mem' := hp0mem
  rw [predsOf_eq] at hp0mem'
  obtain ⟨ch, hch, hpe⟩ := List.mem_map.mp hp0mem'
  have hstarmem : (Prediction.mk cstar (confOf (combinedOf lg text cstar) (maxCombined lg text)))
      ∈ predsOf lg text := by
    rw [predsOf_eq]
    exact List.mem_map_of_mem _ hcs
  obtain ⟨hsd, hsn, _⟩ := combined_facts lg h text cstar hcs
  obtain ⟨qs, hqs, hqsd, hqsval, _, _⟩ := confOf_val hsd hMd hMz hsn hMpos
  have hstarpos : 0 < (combinedOf lg text cstar).val := by
    rw [← hMstar]
    exact hMpos
  have hqs100 : qs.val = 100 := by
    rw [hqsval, hMstar, div_self (ne_of_gt hstarpos)]
    norm_num
  obtain ⟨q0, hq0, hq0d, _, hq0le⟩ := hsome p0 hp0mem
  have hpair := preds_sorted_pairwise lg h text
  rw [hcons, List.pairwise_cons] at hpair
  have hstarS : Prediction.mk cstar (confOf (combinedOf lg text cstar) (maxCombined lg text))
      ∈ p0 :: rest := by
    rw [← hcons]
    exact (sortStable_perm staysBefore (predsOf lg text)).mem_iff.mpr hstarmem
  have hq0_100 : q0.val = 100 := by
    rcases List.mem_cons.mp hstarS with heq | hrest
    · have hpc : p0.confidence = confOf (combinedOf lg text cstar) (maxCombined lg text) := by
        rw [← heq, conf_mk]
      rw [hpc, hqs] at hq0
      rw [← Option.some.inj hq0]
      exact hqs100
    · have hrel := hpair.1 _ hrest
      have hnl := hrel.1
      rw [conf_mk, hqs, hq0] at hnl
      rw [jsLtVal_some] at hnl
      have hle : qs.val ≤ q0.val := not_lt.mp hnl
      rw [hqs100] at hle
      linarith
  have hchconf : p0.confidence = confOf (combinedOf lg text ch) (maxCombined lg text) := by
    rw [← hpe, conf_mk]
  obtain ⟨hchd, hchn, _⟩ := combined_facts lg h text ch hch
  obtain ⟨qc, hqc, _, hqcval, _, _⟩ := confOf_val hchd hMd hMz hchn hMpos
  have hq0qc : q0 = qc := by
    rw [hchconf, hqc] at hq0
    exact (Option.some.inj hq0).symm
  have hcheq : ch = cstar := by
    by_contra hne
    have hlt := hdom ch hch hne
    have hltM : (combinedOf lg text ch).val < (maxCombined lg text).val := by
      rw [hMstar]
      exact hlt
    have hfrac : (combinedOf lg text ch).val / (maxCombined lg text).val < 1 := by
      rw [div_lt_one hMpos]
      exact hltM
    have hqclt : qc.val < 100 := by
      rw [hqcval]
      have h1 : (combinedOf lg text ch).val / (maxCombined lg text).val * 100 < 100 := by
        have h2 := mul_lt_mul_of_pos_right hfrac (show (0:ℚ) < 100 by norm_num)
        rw [one_mul] at h2
        exact h2
      exact lt_of_le_of_lt (min_le_left _ _) h1
    rw [hq0qc] at hq0_100
    rw [hq0_100] at hqclt
    exact lt_irrefl _ hqclt
  refine ⟨?_, ⟨q0, ?_, hq0_100⟩⟩
  · rw [hcat, ← hpe, cat_mk, hcheq]
  · rw [hconf, hq0]

/-! ### Concrete scenario facts (computed by kernel evaluation) -/

theorem business_in_names : "Business" ∈ categoryNames := by decide

theorem mfind_kwOf : ∀ c ∈ categoryNames, mfind categoryKeywords c = some (kwOf c) := by
  decide

theorem business_text_N : (preprocessText "business").length ≠ 0 := by decide

theorem business_text_W : ctxWeightN "business" (kwOf "Business") ≠ 0 := by decide

/-- On the one-word input `"business"` the classifier has a strictly positive
maximum combined score (the Business context scorer fires). -/
theorem business_max_pos : 0 < (maxCombined logLin "business").val :=
  maxCombined_pos_of logLin logLin_ok "business" "Business" business_in_names
    (combined_val_pos_of_ctx logLin logLin_ok "business" "Business" business_in_names
      (ctx_val_pos logLin logLin_ok "business" "Business" (kwOf "Business")
        (mfind_kwOf "Business" business_in_names) business_text_N business_text_W))

theorem fedN_eq : (preprocessText fedText).length = 13 := by decide

theorem fedB_W : ctxWeightN fedText (kwOf "Business") = 10 := by decide

theorem fedB_m : ctxMatchCount fedText (kwOf "Business") = 3 := by decide

/-- Any category whose context numerator on the Federal-Reserve text is below
Business's (and whose semantic score is zero there) scores strictly below
Business. -/
theorem fed_other_lt (lg : Frac → Frac) (h : LogOk lg) (c : String) (hc : c ∈ categoryNames)
    (hlt : ctxWeightN fedText (kwOf c) * (13 + ctxMatchCount fedText (kwOf c)) < 160)
    (hsem : (calculateSemanticSimilarity (calculateWeightedTfIdf lg fedText) c).num = 0) :
    (combinedOf lg fedText c).val < (combinedOf lg fedText "Business").val := by
  have hN : (preprocessText fedText).length ≠ 0 := by rw [fedN_eq]; norm_num
  have hNQ : (((preprocessText fedText).length : ℚ)) = 13 := by rw [fedN_eq]; norm_num
  have hckc := mfind_kwOf c hc
  have hckB := mfind_kwOf "Business" business_in_names
  obtain ⟨_, _, hformc⟩ := ctxOr0_facts lg h fedText c (kwOf c) hckc
  obtain ⟨_, _, hformB⟩ := ctxOr0_facts lg h fedText "Business" (kwOf "Business") hckB
  have hctxc := hformc hN
  have hctxB := hformB hN
  rw [hNQ] at hctxc hctxB
  rw [fedB_W, fedB_m] at hctxB
  obtain ⟨_, _, hcval⟩ := combined_facts lg h fedText c hc
  obtain ⟨_, _, hBval⟩ := combined_facts lg h fedText "Business" business_in_names
  obtain ⟨_, hsnB⟩ := semantic_den_val lg fedText "Business" (logOk_idf_den h) (logOk_idf_nonneg h)
  have hsemc : (calculateSemanticSimilarity (calculateWeightedTfIdf lg fedText) c).val = 0 :=
    val_of_num_zero hsem
  obtain ⟨_, hDpos, _, hDval⟩ := dd_facts h (preprocessText fedText).length
  have hLpos : 0 < 1 + (lg (fadd (fofN 1) (fofN (preprocessText fedText).length))).val := by
    rw [← hDval]
    exact hDpos
  have hnum : (ctxWeightN fedText (kwOf c) : ℚ) *
      (1 + (ctxMatchCount fedText (kwOf c) : ℚ) / 13) <
      ((10:ℕ) : ℚ) * (1 + ((3:ℕ) : ℚ) / 13) := by
    have hcast : ((ctxWeightN fedText (kwOf c) * (13 + ctxMatchCount fedText (kwOf c)) : ℕ) : ℚ)
        < 160 := by
      exact_mod_cast hlt
    have heq : (ctxWeightN fedText (kwOf c) : ℚ) *
        (1 + (ctxMatchCount fedText (kwOf c) : ℚ) / 13) =
        ((ctxWeightN fedText (kwOf c) * (13 + ctxMatchCount fedText (kwOf c)) : ℕ) : ℚ) / 13 := by
      push_cast
      ring
    rw [heq]
    rw [show ((10:ℕ) : ℚ) * (1 + ((3:ℕ) : ℚ) / 13) = 160 / 13 by norm_num]
    rw [div_lt_div_iff (by norm_num) (by norm_num)]
    exact mul_lt_mul_of_pos_right hcast (by norm_num)
  have hctxlt : (jsOrJ (mfind (analyzeContextPatterns lg fedText) c) (fofN 0)).val <
      (jsOrJ (mfind (analyzeContextPatterns lg fedText) "Business") (fofN 0)).val := by
    rw [hctxc, hctxB]
    rw [div_lt_div_iff hLpos hLpos]
    exact mul_lt_mul_of_pos_right hnum hLpos
  have hm1 : (jsOrJ (mfind (analyzeContextPatterns lg fedText) c) (fofN 0)).val * w04.val <
      (jsOrJ (mfind (analyzeContextPatterns lg fedText) "Business") (fofN 0)).val * w04.val := by
    rw [w04_val]
    exact mul_lt_mul_of_pos_right hctxlt (by norm_num)
  have hsB : 0 ≤ (calculateSemanticSimilarity (calculateWeightedTfIdf lg fedText)
      "Business").val * w06.val := by
    rw [w06_val]
    exact mul_nonneg hsnB (by norm_num)
  rw [hcval, hBval, hsemc]
  have hz : (0:ℚ) * w06.val = 0 := by ring
  linarith [hm1, hsB]

theorem fed_dominance (lg : Frac → Frac) (h : LogOk lg) :
    ∀ c ∈ categoryNames, c ≠ "Business" →
      (combinedOf lg fedText c).val < (combinedOf lg fedText "Business").val := by
  intro c hc hne
  have hc' := hc
  rw [categoryNames_eq] at hc'
  simp only [List.mem_cons, List.not_mem_nil, or_false] at hc'
  rcases hc' with h1 | h1 | h1 | h1 | h1 | h1 | h1 <;> subst h1
  · exact fed_other_lt lg h "Technology" hc (by decide)
      (semantic_num_zero lg fedText "Technology" (by decide))
  · exact absurd rfl hne
  · exact fed_other_lt lg h "Politics" hc (by decide)
      (semantic_num_zero lg fedText "Politics" (by decide))
  · exact fed_other_lt lg h "Sports" hc (by decide)
      (semantic_num_zero lg fedText "Sports" (by decide))
  · exact fed_other_lt lg h "Entertainment" hc (by decide)
      (semantic_num_zero lg fedText "Entertainment" (by decide))
  · exact fed_other_lt lg h "Health" hc (by decide)
      (semantic_num_zero lg fedText "Health" (by decide))
  · exact fed_other_lt lg h "Science" hc (by decide)
      (semantic_num_zero lg fedText "Science" (by decide))

theorem noSignal_conditions (lg : Frac → Frac) (text : String)
    (hsem : ∀ c ∈ categoryNames, ∀ w ∈ catWordsOf c, (preprocessText text).count w = 0)
    (hctx : ∀ c ∈ categoryNames, ctxWeightN text (kwOf c) = 0) :
    ∀ c ∈ categoryNames, (combinedOf lg text c).num = 0 := by
  intro c hc
  exact combined_num_zero lg text c (kwOf c) (mfind_kwOf c hc)
    (semantic_num_zero lg text c (hsem c hc)) (hctx c hc)

/-! ### The claims -/

/-- C2: the source's `classifyNews` does not fail on empty or whitespace-only
input: it silently returns a full 7-entry result whose confidences are NaN.
There is no `InvalidInput` error anywhere in the function. -/
theorem claim_C2 :
    (classifyNews logLin "").predictions.length = 7 ∧
    (classifyNews logLin "   ").predictions.length = 7 ∧
    (classifyNews logLin "").confidence = none ∧
    (classifyNews logLin "   ").confidence = none := by
  refine ⟨classifyNews_pred_length logLin "", classifyNews_pred_length logLin "   ", ?_, ?_⟩
  · exact (noSignal_confidence logLin ""
      (noSignal_conditions logLin "" (by decide) (by decide))).2
  · exact (noSignal_confidence logLin "   "
      (noSignal_conditions logLin "   " (by decide) (by decide))).2

/-- C3: for the non-empty nonsense input `"zzzz zzzz"` (a repeated
non-keyword word), every combined score is zero and `classifyNews` returns
NaN (`none`) for every confidence — the NoSignal case is *not* handled: the
NaN of `0/0` propagates to the result. -/
theorem claim_C3 :
    preprocessText "zzzz zzzz" = ["zzzz", "zzzz"] ∧
    (∀ p ∈ (classifyNews logLin "zzzz zzzz").predictions, p.confidence = none) ∧
    (classifyNews logLin "zzzz zzzz").confidence = none := by
  have hns := noSignal_confidence logLin "zzzz zzzz"
    (noSignal_conditions logLin "zzzz zzzz" (by decide) (by decide))
  exact ⟨by decide, hns.1, hns.2⟩

/-- C4 (counterexample): `"aa"` is a valid non-empty input (it preprocesses
to one token), yet the result's confidence is NaN — not a number in
`[0,100]` — so the invariant as claimed fails. -/
theorem claim_C4_counterexample :
    preprocessText "aa" = ["aa"] ∧ (classifyNews logLin "aa").confidence = none := by
  refine ⟨by decide, ?_⟩
  exact (noSignal_confidence logLin "aa"
    (noSignal_conditions logLin "aa" (by decide) (by decide))).2

/-- C4 (amended): whenever the maximum combined score is a nonzero number,
the claimed invariant holds: 7 predictions, exactly one per category, every
confidence a number in `[0,100]`, and the result's category/confidence are
those of the first prediction. -/
theorem claim_C4 (lg : Frac → Frac) (h : LogOk lg) (text : String)
    (hMz : (maxCombined lg text).isZero = false) :
    (classifyNews lg text).predictions.length = 7 ∧
    ((classifyNews lg text).predictions.map Prediction.category).Perm categoryNames ∧
    (∀ p ∈ (classifyNews lg text).predictions, ∃ q, p.confidence = some q ∧
      0 ≤ q.val ∧ q.val ≤ 100) ∧
    ∃ p0 rest, (classifyNews lg text).predictions = p0 :: rest ∧
      (classifyNews lg text).category = p0.category ∧
      (classifyNews lg text).confidence = p0.confidence := by
  refine ⟨classifyNews_pred_length lg text, ?_, ?_, ?_⟩
  · rw [classifyNews_predictions]
    have hperm := (sortStable_perm staysBefore (predsOf lg text)).map Prediction.category
    rw [preds_categories] at hperm
    exact hperm
  · intro p hp
    rw [classifyNews_predictions] at hp
    have hp' := (sortStable_perm staysBefore (predsOf lg text)).mem_iff.mp hp
    obtain ⟨q, hq, _, h0, h100⟩ := preds_conf_some lg h text hMz p hp'
    exact ⟨q, hq, h0, h100⟩
  · obtain ⟨p0, rest, hcons⟩ : ∃ p0 rest,
        sortStable staysBefore (predsOf lg text) = p0 :: rest := by
      rcases hs : sortStable staysBefore (predsOf lg text) with _ | ⟨a, l⟩
      · exact absurd hs (sortStable_preds_ne_nil lg text)
      · exact ⟨a, l, rfl⟩
    obtain ⟨hconf, hcat, hpreds⟩ := classifyNews_fields lg text p0 rest hcons
    exact ⟨p0, rest, hpreds, hcat, hconf⟩

theorem claim_C4_witness :
    (classifyNews logLin "business").predictions.length = 7 ∧
    ((classifyNews logLin "business").predictions.map Prediction.category).Perm categoryNames ∧
    (∀ p ∈ (classifyNews logLin "business").predictions, ∃ q, p.confidence = some q ∧
      0 ≤ q.val ∧ q.val ≤ 100) ∧
    ∃ p0 rest, (classifyNews logLin "business").predictions = p0 :: rest ∧
      (classifyNews logLin "business").category = p0.category ∧
      (classifyNews logLin "business").confidence = p0.confidence :=
  claim_C4 logLin logLin_ok "business"
    (maxCombined_isZero_false logLin logLin_ok "business" business_max_pos)

/-- C5: on the Federal-Reserve scenario input the top category is Business,
and the predictions cover all 7 categories (one entry per category). -/
theorem claim_C5 (lg : Frac → Frac) (h : LogOk lg) :
    (classifyNews lg fedText).category = "Business" ∧
    ((classifyNews lg fedText).predictions.map Prediction.category).Perm categoryNames := by
  refine ⟨(top_of_dominant lg h fedText "Business" business_in_names (fed_dominance lg h)).1, ?_⟩
  rw [classifyNews_predictions]
  have hperm := (sortStable_perm staysBefore (predsOf lg fedText)).map Prediction.category
  rw [preds_categories] at hperm
  exact hperm

theorem claim_C5_witness :
    (classifyNews logLin fedText).category = "Business" ∧
    ((classifyNews logLin fedText).predictions.map Prediction.category).Perm categoryNames :=
  claim_C5 logLin logLin_ok

/-- C6: the tf-idf scorer maps exactly the distinct preprocessed words of the
input, each to `tf * idf * vocabularyWeight(w)` with `tf = freq(w)/N` and the
word-independent collapsed idf `log (1 + V/2)` (`V` the vocabulary size);
the weight defaults to 1 for words outside the vocabulary. -/
theorem claim_C6 (lg : Frac → Frac) (h : LogOk lg) (text w : String) :
    (mfind (calculateWeightedTfIdf lg text) w = none ↔
      (preprocessText text).count w = 0) ∧
    (∀ q, mfind (calculateWeightedTfIdf lg text) w = some q →
      q.val = tfIdfVal lg text w) ∧
    idfArg.val = 1 + (vocabSize : ℚ) / 2 := by
  refine ⟨?_, ?_, ?_⟩
  · rw [tfidf_mfind]
    by_cases hcw : (preprocessText text).count w = 0
    · simp [hcw]
    · simp [hcw]
  · intro q hq
    rw [tfidf_mfind] at hq
    by_cases hcw : (preprocessText text).count w = 0
    · rw [if_pos hcw] at hq
      exact absurd hq (by simp)
    · rw [if_neg hcw] at hq
      obtain rfl := Option.some.inj hq
      exact (tfidfScore_facts lg text w hcw (logOk_idf_den h)).2
  · rw [idfArg_val]
    have hv : vocabSize = 282 := rfl
    rw [hv]
    norm_num

theorem claim_C6_witness :
    (mfind (calculateWeightedTfIdf logLin "business market") "business" = none ↔
      (preprocessText "business market").count "business" = 0) ∧
    (∀ q, mfind (calculateWeightedTfIdf logLin "business market") "business" = some q →
      q.val = tfIdfVal logLin "business market" "business") ∧
    idfArg.val = 1 + (vocabSize : ℚ) / 2 :=
  claim_C6 logLin logLin_ok "business market" "business"

/-- C7: the context scorer stores, for each category, exactly the score of
its keyword group, and — whenever the text has at least one token — that
score is the number `(W * (1 + matches/textLength)) / (1 + log (1 +
textLength))`, where `W` sums 4/3/2 per matching primary/secondary/other
term (a term matches when its lowercased form is a literal substring of the
lowercased text). -/
theorem claim_C7 (lg : Frac → Frac) (h : LogOk lg) (text c : String)
    (kw : List (String × List String)) (hck : mfind categoryKeywords c = some kw)
    (hN : (preprocessText text).length ≠ 0) :
    mfind (analyzeContextPatterns lg text) c = some (contextScoreOf lg text kw) ∧
    ∃ q, contextScoreOf lg text kw = some q ∧ 0 < q.den ∧
      q.val = ((ctxWeightN text kw : ℚ) * (1 + (ctxMatchCount text kw : ℚ) /
          ((preprocessText text).length : ℚ))) /
        (1 + (lg (fadd (fofN 1) (fofN (preprocessText text).length))).val) := by
  constructor
  · rw [mfind_analyze, hck]
    simp only [Option.map_some']
  · exact contextScoreOf_some lg h text kw hN

theorem claim_C7_witness :
    mfind (analyzeContextPatterns logLin "business market") "Business" =
      some (contextScoreOf logLin "business market" (kwOf "Business")) ∧
    ∃ q, contextScoreOf logLin "business market" (kwOf "Business") = some q ∧ 0 < q.den ∧
      q.val = ((ctxWeightN "business market" (kwOf "Business") : ℚ) *
          (1 + (ctxMatchCount "business market" (kwOf "Business") : ℚ) /
          ((preprocessText "business market").length : ℚ))) /
        (1 + (logLin (fadd (fofN 1)
          (fofN (preprocessText "business market").length))).val) :=
  claim_C7 logLin logLin_ok "business market" "Business" (kwOf "Business")
    (by decide) (by decide)

/-- C8: the returned predictions are descending in confidence value, and any
two entries whose confidences tie (equal values, or both NaN) appear in the
categories' declaration order. -/
theorem claim_C8 (lg : Frac → Frac) (h : LogOk lg) (text : String) :
    (classifyNews lg text).predictions.Pairwise (fun a b =>
      ¬ jsLtVal a.confidence b.confidence ∧
      (jsEqVal a.confidence b.confidence → catRank a.category < catRank b.category)) := by
  rw [classifyNews_predictions]
  exact preds_sorted_pairwise lg h text

theorem claim_C8_witness :
    (classifyNews logLin fedText).predictions.Pairwise (fun a b =>
      ¬ jsLtVal a.confidence b.confidence ∧
      (jsEqVal a.confidence b.confidence → catRank a.category < catRank b.category)) :=
  claim_C8 logLin logLin_ok fedText

/-- C9: whenever the maximum combined score is strictly positive, the top
confidence returned by `classifyNews` is exactly 100. -/
theorem claim_C9 (lg : Frac → Frac) (h : LogOk lg) (text : String)
    (hM : 0 < (maxCombined lg text).val) :
    ∃ q, (classifyNews lg text).confidence = some q ∧ q.val = 100 := by
  have hMz := maxCombined_isZero_false lg h text hM
  obtain ⟨hMd, _, hge, c0, hc0, hMeq⟩ := maxCombined_facts lg h text
  have hsome := preds_conf_some lg h text hMz
  obtain ⟨p0, rest, hcons⟩ : ∃ p0 rest,
      sortStable staysBefore (predsOf lg text) = p0 :: rest := by
    rcases hs : sortStable staysBefore (predsOf lg text) with _ | ⟨a, l⟩
    · exact absurd hs (sortStable_preds_ne_nil lg text)
    · exact ⟨a, l, rfl⟩
  obtain ⟨hconf, _, _⟩ := classifyNews_fields lg text p0 rest hcons
  have hp0mem : p0 ∈ predsOf lg text := by
    have hmem : p0 ∈ sortStable staysBefore (predsOf lg text) := by
      rw [hcons]
      simp
    exact (sortStable_perm staysBefore (predsOf lg text)).mem_iff.mp hmem
  obtain ⟨q0, hq0, _, _, hq0le⟩ := hsome p0 hp0mem
  have hc0mem : Prediction.mk c0 (confOf (combinedOf lg text c0) (maxCombined lg text))
      ∈ predsOf lg text := by
    rw [predsOf_eq]
    exact List.mem_map_of_mem _ hc0
  obtain ⟨hsd, hsn, _⟩ := combined_facts lg h text c0 hc0
  obtain ⟨qs, hqs, _, hqsval, _, _⟩ := confOf_val hsd hMd hMz hsn hM
  have hc0pos : 0 < (combinedOf lg text c0).val := by
    rw [← hMeq]
    exact hM
  have hqs100 : qs.val = 100 := by
    rw [hqsval, hMeq, div_self (ne_of_gt hc0pos)]
    norm_num
  have hpair := preds_sorted_pairwise lg h text
  rw [hcons, List.pairwise_cons] at hpair
  have hc0S : Prediction.mk c0 (confOf (combinedOf lg text c0) (maxCombined lg text))
      ∈ p0 :: rest := by
    rw [← hcons]
    exact (sortStable_perm staysBefore (predsOf lg text)).mem_iff.mpr hc0mem
  have hq0_100 : q0.val = 100 := by
    rcases List.mem_cons.mp hc0S with heq | hrest
    · have hpc : p0.confidence = confOf (combinedOf lg text c0) (maxCombined lg text) := by
        rw [← heq, conf_mk]
      rw [hpc, hqs] at hq0
      rw [← Option.some.inj hq0]
      exact hqs100
    · have hnl := (hpair.1 _ hrest).1
      rw [conf_mk, hqs, hq0] at hnl
      rw [jsLtVal_some] at hnl
      have hle : qs.val ≤ q0.val := not_lt.mp hnl
      rw [hqs100] at hle
      linarith
  exact ⟨q0, by rw [hconf, hq0], hq0_100⟩

theorem claim_C9_witness :
    0 < (maxCombined logLin "business").val ∧
    ∃ q, (classifyNews logLin "business").confidence = some q ∧ q.val = 100 :=
  ⟨business_max_pos, claim_C9 logLin logLin_ok "business" business_max_pos⟩

/-- C10: every category's semantic total weight is a strictly positive
number that depends only on the category's keyword lists (it is the same for
every table of text scores), so the `totalWeight > 0` guard always takes the
division branch `similarity / totalWeight`. -/
theorem claim_C10 (c : String) (hc : c ∈ categoryNames) (ts : List (String × Frac)) :
    0 < (semanticAccum ts c).2.den ∧ 0 < (semanticAccum ts c).2.val ∧
    (semanticAccum ts c).2 = (semanticAccum [] c).2 ∧
    calculateSemanticSimilarity ts c = fdiv (semanticAccum ts c).1 (semanticAccum ts c).2 :=
  ⟨(semanticAccum_tw_pos c hc ts).1, (semanticAccum_tw_pos c hc ts).2,
    semanticAccum_tw_independent c ts, semantic_division_branch c hc ts⟩

/-! ### The vocabulary builder (claim C1) -/

theorem encodeL_pos : ∀ l : List Char, 1 ≤ encodeL l
  | [] => le_refl 1
  | c :: cs => by
    have h := encodeL_pos cs
    simp only [encodeL]
    have h2 : 4294967296 * 1 ≤ 4294967296 * encodeL cs := Nat.mul_le_mul_left _ h
    omega

theorem char_toNat_lt (c : Char) : c.toNat < 4294967296 := by
  have h := UInt32.toNat_lt_size c.val
  have hs : UInt32.size = 4294967296 := rfl
  rw [hs] at h
  exact h

theorem encodeL_inj : ∀ l₁ l₂ : List Char, encodeL l₁ = encodeL l₂ → l₁ = l₂
  | [], [], _ => rfl
  | [], c :: cs, h => by
    exfalso
    simp only [encodeL] at h
    have h1 := encodeL_pos cs
    have h2 := char_toNat_lt c
    omega
  | c :: cs, [], h => by
    exfalso
    simp only [encodeL] at h
    have h1 := encodeL_pos cs
    have h2 := char_toNat_lt c
    omega
  | c :: cs, d :: ds, h => by
    simp only [encodeL] at h
    have hc := char_toNat_lt c
    have hd := char_toNat_lt d
    have heq1 : c.toNat = d.toNat := by omega
    have heq2 : encodeL cs = encodeL ds := by omega
    have hcd : c = d := Char.ext (UInt32.toNat.inj heq1)
    rw [hcd, encodeL_inj cs ds heq2]

theorem encode_inj {s₁ s₂ : String} (h : encode s₁ = encode s₂) : s₁ = s₂ := by
  cases s₁ with
  | mk d₁ =>
    cases s₂ with
    | mk d₂ =>
      simp only [encode] at h
      rw [encodeL_inj d₁ d₂ h]

theorem mset_encode {β : Type} : ∀ (m : List (String × β)) (k : String) (v : β),
    (mset m k v).map eP = msetE (m.map eP) (encode k) v := by
  intro m
  induction m with
  | nil => intro k v; rfl
  | cons e rest ih =>
    intro k v
    obtain ⟨k', v'⟩ := e
    by_cases hk : k' = k
    · subst hk
      simp [mset, msetE, eP]
    · have hne : encode k' ≠ encode k := fun hc => hk (encode_inj hc)
      simp [mset, msetE, eP, hk, hne, ih]

theorem mfind_encode {β : Type} : ∀ (m : List (String × β)) (k : String),
    mfindE (m.map eP) (encode k) = mfind m k := by
  intro m
  induction m with
  | nil => intro k; rfl
  | cons e rest ih =>
    intro k
    obtain ⟨k', v'⟩ := e
    by_cases hk : k' = k
    · subst hk
      simp [mfind, mfindE, eP]
    · have hne : encode k' ≠ encode k := fun hc => hk (encode_inj hc)
      simp [mfind, mfindE, eP, hk, hne, ih]

theorem foldl_map_comm {α γ δ : Type} (g : γ → δ) (f : γ → α → γ) (fE : δ → α → δ)
    (hcomm : ∀ acc x, g (f acc x) = fE (g acc) x) :
    ∀ (l : List α) (acc : γ), g (l.foldl f acc) = l.foldl fE (g acc) := by
  intro l
  induction l with
  | nil => intro acc; rfl
  | cons x xs ih =>
    intro acc
    rw [List.foldl_cons, List.foldl_cons, ih, hcomm]

theorem setWords_encode (vocab : List (String × Frac)) (wt : Frac) (terms : List String) :
    (setWords vocab wt terms).map eP = setWordsE (vocab.map eP) wt terms := by
  unfold setWords setWordsE
  refine foldl_map_comm (List.map eP) _ _ ?_ terms vocab
  intro acc term
  refine foldl_map_comm (List.map eP) _ _ ?_ (splitWords term) acc
  intro acc2 word
  exact mset_encode acc2 (lowerStr word) wt

theorem setWordsIfAbsent_encode (vocab : List (String × Frac)) (wt : Frac)
    (terms : List String) :
    (setWordsIfAbsent vocab wt terms).map eP = setWordsIfAbsentE (vocab.map eP) wt terms := by
  unfold setWordsIfAbsent setWordsIfAbsentE
  refine foldl_map_comm (List.map eP) _ _ ?_ terms vocab
  intro acc term
  refine foldl_map_comm (List.map eP) _ _ ?_ (splitWords term) acc
  intro acc2 word
  by_cases hf : mfind acc2 (lowerStr word) = none
  · rw [if_pos hf, if_pos (by rw [mfind_encode]; exact hf), mset_encode]
  · rw [if_neg hf, if_neg (by rw [mfind_encode]; exact hf)]

theorem create_encode : createWeightedVocabulary.map eP = createE := by
  unfold createWeightedVocabulary createE
  refine foldl_map_comm (List.map eP) _ _ ?_ categoryKeywords []
  intro acc cat
  dsimp only
  rw [← setWords_encode, ← setWords_encode]
  refine foldl_map_comm (List.map eP) _ _ ?_ cat.2 _
  intro acc2 e
  by_cases he : e.1 = "primary" ∨ e.1 = "secondary"
  · rw [if_pos he, if_pos he]
  · rw [if_neg he, if_neg he, setWordsIfAbsent_encode]

set_option maxRecDepth 8000 in
set_option maxHeartbeats 4000000 in
/-- The encoded builder, evaluated by the kernel over numeric keys, yields
exactly the encoded precomputed vocabulary literal. -/
theorem createE_eval : createE = weightedVocabulary.map eP := by decide

/-- The precomputed vocabulary literal is exactly what the source's
`createWeightedVocabulary` builds. -/
theorem weightedVocabulary_built : weightedVocabulary = createWeightedVocabulary := by
  have hinj : Function.Injective (eP (β := Frac)) := by
    intro a b hab
    cases a with
    | mk a1 a2 =>
      cases b with
      | mk b1 b2 =>
        simp only [eP, Prod.mk.injEq] at hab
        rw [Prod.mk.injEq]
        exact ⟨encode_inj hab.1, hab.2⟩
  have h := create_encode
  rw [createE_eval] at h
  exact (List.map_injective_iff.mpr hinj h).symm

set_option maxRecDepth 8000 in
set_option maxHeartbeats 1000000 in
theorem psRevList_eq : psWrites.reverse = psRevList := by decide

set_option maxRecDepth 8000 in
set_option maxHeartbeats 1000000 in
theorem otherWordsList_eq : otherWords = otherWordsList := by decide

set_option maxRecDepth 8000 in
set_option maxHeartbeats 1000000 in
theorem allWritesKeys_eq : allWrites.map Prod.fst = allWritesKeys := by decide

theorem specWeight_eq (w : String) : specWeight w = specWeightFast w := by
  unfold specWeight specWeightFast lastPsWeightOf
  rw [psRevList_eq, otherWordsList_eq]

theorem contains_encode : ∀ (l : List String) (w : String),
    (l.map encode).contains (encode w) = l.contains w := by
  intro l w
  induction l with
  | nil => rfl
  | cons x xs ih =>
    simp only [List.map_cons, List.contains_cons, ih]
    by_cases h : x = w
    · subst h
      simp
    · have hne : (encode w == encode x) = false := by
        simp only [beq_eq_false_iff_ne, ne_eq]
        intro hc
        exact h (encode_inj hc).symm
      have hwx : (w == x) = false := by
        simp only [beq_eq_false_iff_ne, ne_eq]
        intro hc
        exact h hc.symm
      rw [hne, hwx]

theorem specWeightE_encode (w : String) : specWeightE (encode w) = specWeightFast w := by
  unfold specWeightE specWeightFast
  rw [mfind_encode psRevList w]
  cases hf : mfind psRevList w with
  | none =>
    simp only [hf]
    rw [contains_encode]
  | some q => simp only [hf]

set_option maxRecDepth 8000 in
set_option maxHeartbeats 4000000 in
theorem spec_written_E :
    ∀ e ∈ allWrites.map eP, mfindE (weightedVocabulary.map eP) e.1 = specWeightE e.1 := by
  decide

/-- On every word the builder ever writes, the built map agrees with the
last-primary/secondary-wins characterization (`specWeightFast`, the table
form of `specWeight`). -/
theorem vocab_spec_written :
    ∀ e ∈ allWrites, mfind weightedVocabulary e.1 = specWeightFast e.1 := by
  intro e he
  have h := spec_written_E (eP e) (List.mem_map_of_mem eP he)
  rw [show (eP e).1 = encode e.1 from rfl, mfind_encode, specWeightE_encode] at h
  exact h

set_option maxRecDepth 8000 in
set_option maxHeartbeats 4000000 in
theorem vocab_keysE : ∀ k ∈ weightedVocabulary.map (fun e => encode e.1),
    k ∈ allWritesKeys.map encode := by
  decide

theorem vocab_keys_in_writes : ∀ e ∈ weightedVocabulary, e.1 ∈ allWritesKeys := by
  intro e he
  have h := vocab_keysE (encode e.1) (List.mem_map_of_mem _ he)
  obtain ⟨w, hw, hwe⟩ := List.mem_map.mp h
  rw [encode_inj hwe] at hw
  exact hw

theorem psWrites_sub : ∀ e ∈ psWrites, e.1 ∈ allWrites.map Prod.fst := by
  intro e he
  unfold psWrites at he
  obtain ⟨cpair, hc, he2⟩ := List.mem_flatMap.mp he
  refine List.mem_map_of_mem Prod.fst ?_
  unfold allWrites
  exact List.mem_flatMap.mpr ⟨cpair, hc, List.mem_append_left _ he2⟩

theorem otherWords_sub : ∀ w ∈ otherWords, w ∈ allWrites.map Prod.fst := by
  intro w hw
  unfold otherWords at hw
  obtain ⟨e, he, hfst⟩ := List.mem_map.mp hw
  obtain ⟨cpair, hc, he2⟩ := List.mem_flatMap.mp he
  rw [← hfst]
  refine List.mem_map_of_mem Prod.fst ?_
  unfold allWrites
  exact List.mem_flatMap.mpr ⟨cpair, hc, List.mem_append_right _ he2⟩

/-- C1 (counterexample): the word `research` is written first by Health's
secondary list (weight 2.0) and later by Science's primary list (weight
3.0); the built vocabulary keeps the *later* 3.0, so the first-assignment-
wins rule of the claim does not hold. -/
theorem claim_C1_counterexample :
    mfind createWeightedVocabulary "research" = some weight30 ∧
    firstWeightOf "research" = some weight20 ∧
    weight30 ≠ weight20 := by
  refine ⟨?_, by decide, by decide⟩
  rw [← weightedVocabulary_built]
  decide

/-- C1 (amended): the weight of every word is that of its *last* primary or
secondary occurrence in iteration order (those writes overwrite existing
entries); only the other-class 1.5 writes are first-wins (they never
overwrite, and never fire for a word that has or later gets a
primary/secondary weight... precisely: a word on some primary/secondary list
gets the weight of its last such occurrence, and a word only on other-class
lists gets 1.5). -/
theorem claim_C1 : ∀ w, mfind createWeightedVocabulary w = specWeight w := by
  intro w
  rw [← weightedVocabulary_built, specWeight_eq]
  by_cases hw : w ∈ allWritesKeys
  · rw [← allWritesKeys_eq] at hw
    obtain ⟨e, he, hfst⟩ := List.mem_map.mp hw
    rw [← hfst]
    exact vocab_spec_written e he
  · have hw' : w ∉ allWrites.map Prod.fst := by
      rw [allWritesKeys_eq]
      exact hw
    have h1 : mfind weightedVocabulary w = none := by
      refine (mfind_eq_none_iff _ w).mpr ?_
      intro hk
      obtain ⟨e, he, hfst⟩ := List.mem_map.mp hk
      exact hw (hfst ▸ vocab_keys_in_writes e he)
    have h2 : mfind psRevList w = none := by
      rw [← psRevList_eq]
      refine (mfind_eq_none_iff _ w).mpr ?_
      intro hk
      rw [List.map_reverse, List.mem_reverse] at hk
      obtain ⟨e, he, hfst⟩ := List.mem_map.mp hk
      exact hw' (hfst ▸ psWrites_sub e he)
    have hnotmem : w ∉ otherWordsList := by
      rw [← otherWordsList_eq]
      intro hmem
      exact hw' (otherWords_sub w hmem)
    rw [h1]
    unfold specWeightFast
    rw [h2]
    simp [hnotmem]

theorem claim_C10_witness :
    "Business" ∈ categoryNames ∧
    (0 < (semanticAccum [] "Business").2.den ∧ 0 < (semanticAccum [] "Business").2.val ∧
     (semanticAccum [] "Business").2 = (semanticAccum [] "Business").2 ∧
     calculateSemanticSimilarity [] "Business" =
       fdiv (semanticAccum [] "Business").1 (semanticAccum [] "Business").2) :=
  ⟨by decide, claim_C10 "Business" (by decide) []⟩

end NewsClassifier
